import Mathlib

/-!
# Verification of the JOLT binary codec (jolt-go)

A shallow embedding, in Lean 4, of the JOLT binary serialization codec
(`jolt/codec_binary.go`), the comment-stripping JSON preprocessor
(`StripJSONComments`), and the JOLT-SEC decryption routine (`DecryptJOLT`),
together with theorems that settle the specification's claims about them.

Modelling conventions:
* Go bytes are `Fin 256`; Go byte slices and Go strings (which are raw byte
  sequences, not necessarily valid UTF-8) are `List Byte`.
* Machine-integer arithmetic (`uint64` shifts in the varint reader, the
  `int32(...)` truncation in the Dec decoder, zigzag on `int64`) is carried
  out on `Nat`/`Int` with the wrap-arounds written out explicitly.
* Go's `map[string]any` is represented as an association list; Go map
  semantics (unique keys, last-write-wins) appear as explicit side
  conditions or as erase-then-append updates in the decoder.
* Fallible Go functions return `Option`/`Except`.  The decoder threads an
  explicit fuel argument (the Go recursion terminates because every nested
  `decodeAny` call first consumes at least one byte from a finite buffer;
  fuel `length + 1` makes that argument explicit).
-/

abbrev Byte := Fin 256

/-- Strict lexicographic order on byte strings: `bytes.Compare(a, b) < 0`
(also Go's `<` on `string`, which compares raw bytes). -/
def blt : List Byte → List Byte → Bool
  | [], [] => false
  | [], _ :: _ => true
  | _ :: _, [] => false
  | a :: as, b :: bs => if a.val < b.val then true else if b.val < a.val then false else blt as bs

theorem blt_irrefl : ∀ a : List Byte, blt a a = false := by
  intro a
  induction a with
  | nil => rfl
  | cons x xs ih => simp [blt, ih]

theorem blt_asymm : ∀ a b : List Byte, blt a b = true → blt b a = false := by
  intro a
  induction a with
  | nil => intro b h; cases b <;> simp [blt]
  | cons x xs ih =>
    intro b h
    cases b with
    | nil => simp [blt] at h
    | cons y ys =>
      simp only [blt] at h ⊢
      by_cases hxy : x.val < y.val
      · have : ¬ y.val < x.val := by omega
        simp [hxy, this]
      · by_cases hyx : y.val < x.val
        · simp [hxy, hyx] at h
        · simp [hxy, hyx] at h ⊢
          exact ih ys h

theorem blt_trans : ∀ a b c : List Byte, blt a b = true → blt b c = true → blt a c = true := by
  intro a
  induction a with
  | nil =>
    intro b c hab hbc
    cases b with
    | nil => simp [blt] at hab
    | cons y ys => cases c with
      | nil => simp [blt] at hbc
      | cons z zs => simp [blt]
  | cons x xs ih =>
    intro b c hab hbc
    cases b with
    | nil => simp [blt] at hab
    | cons y ys =>
      cases c with
      | nil => simp [blt] at hbc
      | cons z zs =>
        simp only [blt] at hab hbc ⊢
        by_cases hxy : x.val < y.val <;> by_cases hyz : y.val < z.val
        · have : x.val < z.val := by omega
          simp [this]
        · by_cases hzy : z.val < y.val
          · simp [hxy, hyz, hzy] at hbc
          · have : x.val < z.val := by omega
            simp [this]
        · by_cases hyx : y.val < x.val
          · simp [hxy, hyx] at hab
          · have : x.val < z.val := by omega
            simp [this]
        · by_cases hyx : y.val < x.val
          · simp [hxy, hyx] at hab
          · by_cases hzy : z.val < y.val
            · simp [hyz, hzy] at hbc
            · have hxz : ¬ x.val < z.val := by omega
              have hzx : ¬ z.val < x.val := by omega
              simp [hxy, hyx] at hab
              simp [hyz, hzy] at hbc
              simp [hxz, hzx]
              exact ih ys zs hab hbc

theorem blt_conn : ∀ a b : List Byte, blt a b = false → blt b a = false → a = b := by
  intro a
  induction a with
  | nil => intro b h _; cases b with
    | nil => rfl
    | cons y ys => simp [blt] at h
  | cons x xs ih =>
    intro b hab hba
    cases b with
    | nil => simp [blt] at hba
    | cons y ys =>
      simp only [blt] at hab hba
      by_cases hxy : x.val < y.val
      · simp [hxy] at hab
      · by_cases hyx : y.val < x.val
        · simp [hyx, hxy] at hba
        · have hv : x = y := Fin.ext (by omega)
          simp [hxy, hyx] at hab hba
          rw [hv, ih ys hab hba]

/-! ## Unsigned varints (`encoding/binary.PutUvarint` / `ReadUvarint`)

`PutUvarint` emits little-endian base-128 groups with a continuation bit;
`byte(x) | 0x80` on a `uint64` is `x % 0x80 + 0x80`.  The fuel argument of
the encoder only bounds the recursion (`n` itself always suffices); the
fuel-exhausted branch is unreachable for fuel `≥ n`. -/

def uvarintEncAux : ℕ → ℕ → List Byte
  | 0, n => [⟨n % 256, by omega⟩]
  | fuel + 1, n =>
    if h : n < 0x80 then [⟨n, by omega⟩]
    else ⟨n % 0x80 + 0x80, by omega⟩ :: uvarintEncAux fuel (n / 0x80)

def uvarintEnc (n : ℕ) : List Byte := uvarintEncAux n n

/-- Errors surfaced by the binary decoder.  `eof` is `io.EOF`,
`unexpectedEof` is `io.ErrUnexpectedEOF` (from `ReadUvarint` after at least
one byte), `overflow` is `ReadUvarint`'s 64-bit overflow error, `tooDeep` is
`ErrTooDeep`, `unknownTag` is `ErrUnknownTag` with the offending byte,
`badEnvelope` is `ErrBadEnvelope`.  `outOfFuel` is an artifact of the
embedding's explicit termination fuel and is unreachable when the fuel
exceeds the input length (every nested Go `decodeAny` call consumes at
least its tag byte first). -/
inductive DecErr where
  | eof
  | unexpectedEof
  | overflow
  | tooDeep
  | unknownTag (b : Byte)
  | badEnvelope
  | outOfFuel
deriving DecidableEq, Repr

/-- `binary.ReadUvarint`: at most 10 bytes; the accumulator update
`x |= uint64(b&0x7f) << s` only touches bits `≥ s` while `x < 2^s`, so it
is written as `x + (b % 0x80) * 2^s`; the final-byte overflow check
(`i == 9 && b > 1`) is kept as in the source. -/
def readUvarintAux : ℕ → ℕ → ℕ → List Byte → Except DecErr (ℕ × List Byte)
  | i, x, s, bs =>
    if i < 10 then
      match bs with
      | [] => .error (if 0 < i then .unexpectedEof else .eof)
      | b :: rest =>
        if b.val < 0x80 then
          if i == 9 && decide (1 < b.val) then .error .overflow
          else .ok (x + b.val * 2 ^ s, rest)
        else
          readUvarintAux (i + 1) (x + b.val % 0x80 * 2 ^ s) (s + 7) rest
    else .error .overflow

def readUvarint (bs : List Byte) : Except DecErr (ℕ × List Byte) :=
  readUvarintAux 0 0 0 bs

theorem uvarintEncAux_fuel (n : ℕ) :
    ∀ fuel, n ≤ fuel → uvarintEncAux fuel n = uvarintEnc n := by
  induction n using Nat.strong_induction_on with
  | _ n ih =>
    intro fuel hf
    match fuel, hf with
    | fuel + 1, hf =>
      show uvarintEncAux (fuel + 1) n = uvarintEncAux n n
      by_cases h : n < 0x80
      · match n, h with
        | n + 1, h => simp [uvarintEncAux, h]
        | 0, h => simp [uvarintEncAux]
      · have hn : 0 < n := by omega
        have hdiv : n / 0x80 < n := Nat.div_lt_self hn (by norm_num)
        match n, hn with
        | n + 1, _ =>
          simp only [uvarintEncAux, h, dite_false]
          rw [ih _ hdiv _ (by omega), ih _ hdiv _ (by omega)]
    | 0, hf =>
      have : n = 0 := by omega
      subst this; rfl

theorem readUvarintAux_enc (n : ℕ) :
    ∀ i x s r, i ≤ 9 → n < 2 * 128 ^ (9 - i) →
      readUvarintAux i x s (uvarintEnc n ++ r) = .ok (x + n * 2 ^ s, r) := by
  induction n using Nat.strong_induction_on with
  | _ n ih =>
    intro i x s r hi hbound
    by_cases h : n < 0x80
    · have henc : uvarintEnc n = [⟨n, by omega⟩] := by
        unfold uvarintEnc
        match n, h with
        | n + 1, h => simp [uvarintEncAux, h]
        | 0, h => simp [uvarintEncAux]
      rw [henc]
      simp only [List.cons_append, List.nil_append, readUvarintAux]
      have h10 : i < 10 := by omega
      have hchk : (i == 9 && decide (1 < n)) = false := by
        by_cases h9 : i = 9
        · subst h9
          have : (128 : ℕ) ^ (9 - 9) = 1 := by norm_num
          rw [this] at hbound
          have : ¬ 1 < n := by omega
          simp [this]
        · have : (i == 9) = false := by simp [h9]
          simp [this]
      simp [h10, h, hchk]
    · have hn : 0 < n := by omega
      have hdiv : n / 0x80 < n := Nat.div_lt_self hn (by norm_num)
      have henc : uvarintEnc n =
          ⟨n % 0x80 + 0x80, by omega⟩ :: uvarintEnc (n / 0x80) := by
        unfold uvarintEnc
        match n, hn with
        | n + 1, _ =>
          simp only [uvarintEncAux, h, dite_false]
          rw [uvarintEncAux_fuel _ _ (by omega)]
          rfl
      rw [henc]
      have hi9 : i ≠ 9 := by
        intro h9; subst h9
        have : (128 : ℕ) ^ (9 - 9) = 1 := by norm_num
        rw [this] at hbound; omega
      have h10 : i < 10 := by omega
      have hbig : ¬ (n % 0x80 + 0x80 < 0x80) := by omega
      rw [List.cons_append, readUvarintAux]
      simp only [h10, if_true]
      simp [hbig]
      have hbnd2 : n / 0x80 < 2 * 128 ^ (9 - (i + 1)) := by
        apply Nat.div_lt_of_lt_mul
        calc n < 2 * 128 ^ (9 - i) := hbound
          _ = 0x80 * (2 * 128 ^ (9 - (i + 1))) := by
              have he : 9 - i = (9 - (i + 1)) + 1 := by omega
              rw [he, pow_succ]; ring
      have hstep := ih (n / 0x80) hdiv (i + 1) (x + n % 0x80 * 2 ^ s) (s + 7) r
        (by omega) hbnd2
      rw [hstep]
      congr 2
      have hsplit : n % 0x80 + 0x80 * (n / 0x80) = n := by omega
      calc x + n % 0x80 * 2 ^ s + n / 0x80 * 2 ^ (s + 7)
          = x + (n % 0x80 + 0x80 * (n / 0x80)) * 2 ^ s := by ring
        _ = x + n * 2 ^ s := by rw [hsplit]

/-- Round trip for the varint layer: any value `< 2^64` (every `uint64`)
written by `PutUvarint` is read back exactly by `ReadUvarint`. -/
theorem readUvarint_enc {n : ℕ} (h : n < 2 ^ 64) (r : List Byte) :
    readUvarint (uvarintEnc n ++ r) = .ok (n, r) := by
  have := readUvarintAux_enc n 0 0 0 r (by omega) (by norm_num; omega)
  simpa [readUvarint] using this

/-! ## Raw byte reads and length-prefixed fields -/

/-- One `ReadByte` from a `bytes.Buffer`: `io.EOF` when empty. -/
def readByte : List Byte → Except DecErr (Byte × List Byte)
  | [] => .error .eof
  | b :: rest => .ok (b, rest)

/-- A loop of `n` raw `ReadByte` calls (the decoder's manual payload loops);
each failing read surfaces `io.EOF` directly. -/
def readN : ℕ → List Byte → Except DecErr (List Byte × List Byte)
  | 0, bs => .ok ([], bs)
  | _ + 1, [] => .error .eof
  | n + 1, b :: bs =>
    match readN n bs with
    | .ok (xs, r) => .ok (b :: xs, r)
    | .error e => .error e

theorem readN_append (xs : List Byte) :
    ∀ r, readN xs.length (xs ++ r) = .ok (xs, r) := by
  induction xs with
  | nil => intro r; rfl
  | cons b bs ih =>
    intro r
    simp only [List.length_cons, List.cons_append, readN, List.append_eq, ih r]

/-- `big.Int.Bytes`: minimal big-endian magnitude bytes (empty for zero).
Fuel-driven; fuel `n` always suffices for value `n`. -/
def natBytesAux : ℕ → ℕ → List Byte
  | 0, _ => []
  | fuel + 1, n => if n = 0 then [] else natBytesAux fuel (n / 256) ++ [⟨n % 256, by omega⟩]

def natBytesBE (n : ℕ) : List Byte := natBytesAux n n

/-- `big.Int.SetBytes`: interpret bytes as a big-endian unsigned integer. -/
def bytesToNat (bs : List Byte) : ℕ := bs.foldl (fun acc b => acc * 256 + b.val) 0

theorem bytesToNat_append_byte (bs : List Byte) (b : Byte) :
    bytesToNat (bs ++ [b]) = bytesToNat bs * 256 + b.val := by
  simp [bytesToNat, List.foldl_append]

theorem natBytesAux_fuel (n : ℕ) :
    ∀ fuel, n ≤ fuel → natBytesAux fuel n = natBytesBE n := by
  induction n using Nat.strong_induction_on with
  | _ n ih =>
    intro fuel hf
    match fuel, hf with
    | 0, hf =>
      have : n = 0 := by omega
      subst this; rfl
    | fuel + 1, hf =>
      show natBytesAux (fuel + 1) n = natBytesAux n n
      by_cases h : n = 0
      · subst h; rfl
      · have hdiv : n / 256 < n := Nat.div_lt_self (by omega) (by norm_num)
        match n, h with
        | n + 1, _ =>
          simp only [natBytesAux, if_false]
          rw [ih _ hdiv _ (by omega), ih _ hdiv _ (by omega)]

theorem bytesToNat_natBytesBE (n : ℕ) : bytesToNat (natBytesBE n) = n := by
  induction n using Nat.strong_induction_on with
  | _ n ih =>
    by_cases h : n = 0
    · subst h; rfl
    · have hdiv : n / 256 < n := Nat.div_lt_self (by omega) (by norm_num)
      have hunf : natBytesBE n = natBytesBE (n / 256) ++ [⟨n % 256, by omega⟩] := by
        unfold natBytesBE
        match n, h with
        | n + 1, _ =>
          simp only [natBytesAux, if_false]
          rw [natBytesAux_fuel _ _ (by omega)]
          rfl
      rw [hunf, bytesToNat_append_byte, ih _ hdiv]
      simp only [Fin.val_mk]
      omega

/-- `natBytesBE` never emits a leading zero byte, so its length is
logarithmic in the value; in particular values below `256^k` need at most
`k` bytes. -/
theorem natBytesBE_length_le (k : ℕ) :
    ∀ n, n < 256 ^ k → (natBytesBE n).length ≤ k := by
  induction k with
  | zero =>
    intro n hn
    have : n = 0 := by simpa using hn
    subst this
    simp [natBytesBE, natBytesAux]
  | succ k ih =>
    intro n hn
    by_cases h : n = 0
    · subst h; simp [natBytesBE, natBytesAux]
    · have hdiv : n / 256 < n := Nat.div_lt_self (by omega) (by norm_num)
      have hunf : natBytesBE n = natBytesBE (n / 256) ++ [⟨n % 256, by omega⟩] := by
        unfold natBytesBE
        match n, h with
        | n + 1, _ =>
          simp only [natBytesAux, if_false]
          rw [natBytesAux_fuel _ _ (by omega)]
          rfl
      rw [hunf]
      have : n / 256 < 256 ^ k := by
        apply Nat.div_lt_of_lt_mul
        calc n < 256 ^ (k + 1) := hn
          _ = 256 * 256 ^ k := by rw [pow_succ]; ring
      have := ih (n / 256) this
      simp [List.length_append]
      omega

/-! ## ZigZag (`putZigZag` / `readZigZag`)

`putZigZag` computes `uint64((i << 1) ^ (i >> 63))` on an `int64`: for
`i ≥ 0` the arithmetic-shift mask is zero and the result is `2*i`
(`2*i ≤ 2^64 - 2` for every non-negative `int64`); for `i < 0` the mask is
all-ones and XOR with it complements `2*i mod 2^64`, giving `-2*i - 1`.
`readZigZag` computes `int64((u >> 1) ^ uint64((int64(u&1)<<63)>>63))`:
for even `u` this is `u/2` (which is `< 2^63`, hence non-negative as an
`int64`); for odd `u` it is the complement of `u/2`, i.e. `-(u/2) - 1`. -/

def zigzagEnc (i : ℤ) : ℕ := if 0 ≤ i then (2 * i).toNat else (-(2 * i) - 1).toNat

def zigzagDec (u : ℕ) : ℤ := if u % 2 = 0 then (u / 2 : ℕ) else -((u / 2 : ℕ) : ℤ) - 1

theorem zigzagDec_enc {i : ℤ} (h1 : -(2 ^ 63) ≤ i) (h2 : i < 2 ^ 63) :
    zigzagDec (zigzagEnc i) = i := by
  unfold zigzagEnc zigzagDec
  by_cases h : 0 ≤ i
  · have he : (2 * i).toNat % 2 = 0 := by omega
    simp only [h, if_true, he, if_true]
    omega
  · have he : (-(2 * i) - 1).toNat % 2 = 1 := by omega
    simp only [h, if_false, he]
    norm_num
    omega

theorem zigzagEnc_lt {i : ℤ} (h1 : -(2 ^ 63) ≤ i) (h2 : i < 2 ^ 63) :
    zigzagEnc i < 2 ^ 64 := by
  unfold zigzagEnc
  by_cases h : 0 ≤ i <;> simp only [h, if_true, if_false] <;> omega

/-- Go's `int32(x)` on an `int64`: two's-complement truncation to the low
32 bits. -/
def toInt32 (z : ℤ) : ℤ := (z + 2 ^ 31) % 2 ^ 32 - 2 ^ 31

theorem toInt32_eq_self {z : ℤ} (h1 : -(2 ^ 31) ≤ z) (h2 : z < 2 ^ 31) :
    toInt32 z = z := by
  unfold toInt32
  omega

theorem toInt32_congr {z1 z2 : ℤ} (h : (2 ^ 32 : ℤ) ∣ (z1 - z2)) :
    toInt32 z1 = toInt32 z2 := by
  unfold toInt32
  omega

/-! ## The value universe

The dynamic (`any`) value universe that `encodeAny` serializes and
`decodeAny` produces, restricted to the data model's seventeen variants
(`nil`, `bool`, `string`, `Int`, `Decimal`, `Binary`, `Timestamp`, `Date`,
`Time`, `UUID`, `Link`, `Annot`, `[]any`, `map[string]any`, `Set`, `Map`,
`Envelope`).  A `map[string]any` is represented as an association list of
its (unique) keys; a `Map` (`map[any]any`) as an association list of value
pairs; the `Envelope` struct's `Meta` fields are inlined into `venv`
(`features` is `Option` to keep Go's nil / non-nil `[]string` distinction,
`created` is the `*Timestamp` pointer, `sig` the `any` slot). -/
inductive Value where
  | vnull
  | vbool (b : Bool)
  | vstr (s : List Byte)
  | vint (z : ℤ)
  | vdec (neg : Bool) (exp : ℤ) (coeff : ℕ)
  | vbin (bs : List Byte)
  | vts (s : List Byte)
  | vdate (s : List Byte)
  | vtime (s : List Byte)
  | vuuid (bs : List Byte)
  | vlink (s : List Byte)
  | vannot (s : List Byte)
  | varr (items : List Value)
  | vobj (fields : List (List Byte × Value))
  | vset (items : List Value)
  | vmap (pairs : List (Value × Value))
  | venv (mtype mschema mversion : List Byte) (features : Option (List (List Byte)))
      (created : Option (List Byte)) (sig : Option Value) (body : Value)

def tagNull : Byte := 0x00
def tagF : Byte := 0x01
def tagT : Byte := 0x02
def tagInt : Byte := 0x03
def tagDec : Byte := 0x04
def tagStr : Byte := 0x05
def tagBin : Byte := 0x06
def tagArr : Byte := 0x07
def tagObj : Byte := 0x08
def tagTS : Byte := 0x09
def tagDate : Byte := 0x0A
def tagTime : Byte := 0x0B
def tagSet : Byte := 0x0C
def tagMap : Byte := 0x0D
def tagUUID : Byte := 0x0E
def tagLink : Byte := 0x0F
def tagAnnot : Byte := 0x10
def tagEnv : Byte := 0x11

structure Limits where
  MaxDepth : ℕ
  MaxBytes : ℕ

def DefaultLimits : Limits := { MaxDepth := 1024, MaxBytes := 64 * 2 ^ 20 }

/-- The bytes of the Go string literal `"$comment"`. -/
def commentKey : List Byte := [36, 99, 111, 109, 109, 101, 110, 116]

/-- The bytes of the meta keys `"type"`, `"schema"`, `"version"`,
`"features"`, `"createdAt"`, `"sig"`, `"value"`. -/
def keyType : List Byte := [116, 121, 112, 101]

def keySchema : List Byte := [115, 99, 104, 101, 109, 97]

def keyVersion : List Byte := [118, 101, 114, 115, 105, 111, 110]

def keyFeatures : List Byte := [102, 101, 97, 116, 117, 114, 101, 115]

def keyCreatedAt : List Byte := [99, 114, 101, 97, 116, 101, 100, 65, 116]

def keySig : List Byte := [115, 105, 103]

def keyValue : List Byte := [118, 97, 108, 117, 101]

/-- `writeBytes`: uvarint length prefix followed by the raw bytes. -/
def lenBytes (b : List Byte) : List Byte := uvarintEnc b.length ++ b

/-- Ordering used on encoded buffers by the Set / Map `sort.Slice` calls
(`bytes.Compare(a, b) < 0` as strict order; here as its reflexive
closure, the form `insertionSort` consumes). -/
def leBytes (a b : List Byte) : Prop := blt b a = false

instance : DecidableRel leBytes := fun _ _ => instDecidableEqBool _ _

/-- Ordering of object fields by key, `sort.Strings(ks)`: Go string `<` is
byte-lexicographic. -/
def leKey (a b : List Byte × List Byte) : Prop := blt b.1 a.1 = false

instance : DecidableRel leKey := fun _ _ => instDecidableEqBool _ _

/-! ## The encoder (`EncodeBinary` / `encodeAny`)

Differences of form (not substance) from the Go source, for termination:

* Go sorts object keys (`sort.Strings`) *before* encoding the values and
  Map entries *after* encoding them.  Since the encoding of a value does
  not depend on its position, both orders of operations produce the same
  bytes; the embedding uniformly encodes the entries in given order and
  then sorts the encoded entries (object entries by raw key bytes — the
  same comparison `sort.Strings` uses; Set elements and Map entries by
  encoded bytes exactly as in the source).  `sort.Slice` is an arbitrary
  comparison sort; a stable insertion sort realizes it (ties are
  byte-identical buffers for Set, so stability cannot change the output
  there).
* The `Envelope` case of `encodeAny` builds a fresh `map[string]any` `m`
  with keys `type`, `schema`, `version`, `features` (always) plus
  `createdAt` and `sig` (when non-nil), and encodes it via the
  `map[string]any` case at `depth+1` (so entries are encoded at
  `depth+2`; none of these fixed keys is `"$comment"`, so the comment
  filter never fires).  `sort.Strings` on those keys always yields
  `createdAt < features < schema < sig < type < version`, so the
  embedding emits the entries directly in that order
  (`envKeysSorted` below checks this against the generic sort).
  `Meta.Features` has type `[]string`, which `encodeAny` handles through
  its `json.Marshal`/`Unmarshal` fallback re-encoded at one extra depth
  level: `nil` marshals to JSON `null` (encoded as Null at `depth+3`);
  a non-nil slice marshals to a JSON array of strings (encoded as Arr at
  `depth+3` with the element strings at `depth+4`).  On the value level
  that JSON round trip is the identity for strings that are valid UTF-8
  (`json.Marshal` replaces invalid UTF-8, which is why the canonicality
  predicate used by the round-trip theorem requires valid UTF-8 there). -/

/-- The `"features"` meta entry: `[]string` through the `json.Marshal`
fallback of `encodeAny`, entered at `depth+2`, re-encoding the decoded
JSON at `depth+3`. -/
def featBytes (maxD depth : ℕ) (fs : Option (List (List Byte))) : Option (List Byte) :=
  match fs with
  | none => if depth + 3 > maxD then none else some [tagNull]
  | some l =>
    if depth + 3 > maxD then none
    else if l.length ≠ 0 ∧ depth + 4 > maxD then none
    else some (tagArr :: uvarintEnc l.length ++ (l.map (fun s => tagStr :: lenBytes s)).flatten)

mutual

def encodeAny (pc : Bool) (maxD : ℕ) : ℕ → Value → Option (List Byte)
  | depth, v =>
    if depth > maxD then none
    else
      match v with
      | .vnull => some [tagNull]
      | .vbool b => if b then some [tagT] else some [tagF]
      | .vstr s => some (tagStr :: lenBytes s)
      | .vint z =>
        let sign : Byte := if z < 0 then 0x01 else 0x00
        let mag := natBytesBE z.natAbs
        some (tagInt :: uvarintEnc (mag.length + 1) ++ sign :: mag)
      | .vdec neg e c =>
        let sign : Byte := if neg then 0x01 else 0x00
        some (tagDec :: sign :: uvarintEnc (zigzagEnc e) ++ lenBytes (natBytesBE c))
      | .vbin bs => some (tagBin :: lenBytes bs)
      | .vts s => some (tagTS :: lenBytes s)
      | .vdate s => some (tagDate :: lenBytes s)
      | .vtime s => some (tagTime :: lenBytes s)
      | .vuuid bs => some (tagUUID :: bs)
      | .vlink s => some (tagLink :: lenBytes s)
      | .vannot s => some (tagAnnot :: lenBytes s)
      | .varr items =>
        match encodeItems pc maxD (depth + 1) items with
        | some encs => some (tagArr :: uvarintEnc items.length ++ encs.flatten)
        | none => none
      | .vobj fields =>
        match encodeFields pc maxD (depth + 1) fields with
        | some fs =>
          some (tagObj :: uvarintEnc fs.length ++
            ((fs.insertionSort leKey).map (fun kv => lenBytes kv.1 ++ kv.2)).flatten)
        | none => none
      | .vset items =>
        match encodeItems pc maxD (depth + 1) items with
        | some encs => some (tagSet :: uvarintEnc encs.length ++ (encs.insertionSort leBytes).flatten)
        | none => none
      | .vmap pairs =>
        match encodePairs pc maxD (depth + 1) pairs with
        | some kvs =>
          some (tagMap :: uvarintEnc kvs.length ++
            ((kvs.insertionSort leKey).map (fun p => p.1 ++ p.2)).flatten)
        | none => none
      | .venv t sch ver fs cr sg body =>
        if depth + 1 > maxD then none
        else if depth + 2 > maxD then none
        else
          match featBytes maxD depth fs with
          | none => none
          | some fb =>
            let crEntry : List (List Byte × List Byte) :=
              match cr with
              | some ts => [(keyCreatedAt, tagTS :: lenBytes ts)]
              | none => []
            match encodeSigEntry pc maxD (depth + 2) sg with
            | none => none
            | some sgEntry =>
              let entries : List (List Byte × List Byte) :=
                crEntry ++ [(keyFeatures, fb), (keySchema, tagStr :: lenBytes sch)] ++
                  sgEntry ++ [(keyType, tagStr :: lenBytes t), (keyVersion, tagStr :: lenBytes ver)]
              let mb := tagObj :: uvarintEnc entries.length ++
                (entries.map (fun kv => lenBytes kv.1 ++ kv.2)).flatten
              match encodeAny pc maxD (depth + 1) body with
              | some bb => some (tagEnv :: mb ++ bb)
              | none => none
  termination_by structural _ v => v

/-- The optional `"sig"` meta entry (`m["sig"] = x.Meta.Sig` when non-nil),
encoded like any other object entry. -/
def encodeSigEntry (pc : Bool) (maxD : ℕ) : ℕ → Option Value →
    Option (List (List Byte × List Byte))
  | _, none => some []
  | depth, some sv =>
    match encodeAny pc maxD depth sv with
    | some e => some [(keySig, e)]
    | none => none
  termination_by structural _ o => o

def encodeItems (pc : Bool) (maxD : ℕ) : ℕ → List Value → Option (List (List Byte))
  | _, [] => some []
  | depth, v :: vs =>
    match encodeAny pc maxD depth v with
    | some e =>
      match encodeItems pc maxD depth vs with
      | some es => some (e :: es)
      | none => none
    | none => none
  termination_by structural _ l => l

/-- Object entries: the Go source first copies the map skipping
`"$comment"` keys when `PreserveComments` is false, then encodes each
value; the skip is fused into the traversal here. -/
def encodeFields (pc : Bool) (maxD : ℕ) : ℕ → List (List Byte × Value) →
    Option (List (List Byte × List Byte))
  | _, [] => some []
  | depth, (k, v) :: rest =>
    if k = commentKey ∧ ¬ pc then encodeFields pc maxD depth rest
    else
      match encodeAny pc maxD depth v with
      | some e =>
        match encodeFields pc maxD depth rest with
        | some es => some ((k, e) :: es)
        | none => none
      | none => none
  termination_by structural _ l => l

def encodePairs (pc : Bool) (maxD : ℕ) : ℕ → List (Value × Value) →
    Option (List (List Byte × List Byte))
  | _, [] => some []
  | depth, (k, v) :: rest =>
    match encodeAny pc maxD depth k with
    | some ke =>
      match encodeAny pc maxD depth v with
      | some ve =>
        match encodePairs pc maxD depth rest with
        | some es => some ((ke, ve) :: es)
        | none => none
      | none => none
    | none => none
  termination_by structural _ l => l

end

/-- `EncodeBinary`: encode from depth 0 against the (package-global)
`DefaultLimits.MaxDepth`; `pc` is the global `PreserveComments` flag.  The
only failure for model values is `ErrTooDeep` (`none`). -/
def EncodeBinary (pc : Bool) (v : Value) : Option (List Byte) :=
  encodeAny pc DefaultLimits.MaxDepth 0 v

/-! ## The decoder (`DecodeBinary` / `decodeAny`)

The Go recursion terminates because every nested call consumes at least one
byte of the finite buffer before recursing; the embedding makes this
explicit with a structural fuel argument that every mutual call decreases.
Fuel `2 * length + 2` dominates the number of recursive calls any input of
that length can cause (each call either consumes a byte or fails), so the
`outOfFuel` branches are unreachable from `DecodeBinary`. -/

/-- `obj[k] = val` on the association-list representation of
`map[string]any`: any previous binding of `k` is replaced. -/
def objInsert (acc : List (List Byte × Value)) (k : List Byte) (v : Value) :
    List (List Byte × Value) :=
  acc.filter (fun kv => ¬ kv.1 = k) ++ [(k, v)]

/-- Go map lookup `m[k]` on the association-list representation (keys are
unique by construction, so first match suffices). -/
def lookupKey (l : List (List Byte × Value)) (k : List Byte) : Option Value :=
  (l.find? (fun kv => kv.1 == k)).map (fun kv => kv.2)

/-- The `features` loop of the `tagEnv` decoder: keep the elements that
are Go strings, drop the rest. -/
def collectStrings (items : List Value) : List (List Byte) :=
  items.filterMap (fun v => match v with | .vstr s => some s | _ => none)

mutual

def decodeAny (pc : Bool) (lim : Limits) : ℕ → ℕ → List Byte →
    Except DecErr (Value × List Byte)
  | 0, _, _ => .error .outOfFuel
  | fuel + 1, depth, bs =>
    if depth > lim.MaxDepth then .error .tooDeep
    else
      match readByte bs with
      | .error e => .error e
      | .ok (tag, r0) =>
        if tag = tagNull then .ok (.vnull, r0)
        else if tag = tagF then .ok (.vbool false, r0)
        else if tag = tagT then .ok (.vbool true, r0)
        else if tag = tagStr ∨ tag = tagTS ∨ tag = tagDate ∨ tag = tagTime ∨
            tag = tagLink ∨ tag = tagAnnot then
          match readUvarint r0 with
          | .error e => .error e
          | .ok (n, r1) =>
            match readN n r1 with
            | .error e => .error e
            | .ok (sb, r2) =>
              if tag = tagStr then .ok (.vstr sb, r2)
              else if tag = tagTS then .ok (.vts sb, r2)
              else if tag = tagDate then .ok (.vdate sb, r2)
              else if tag = tagTime then .ok (.vtime sb, r2)
              else if tag = tagLink then .ok (.vlink sb, r2)
              else .ok (.vannot sb, r2)
        else if tag = tagBin then
          match readUvarint r0 with
          | .error e => .error e
          | .ok (n, r1) =>
            match readN n r1 with
            | .error e => .error e
            | .ok (sb, r2) => .ok (.vbin sb, r2)
        else if tag = tagInt then
          match readUvarint r0 with
          | .error e => .error e
          | .ok (n, r1) =>
            if n = 0 then .ok (.vint 0, r1)
            else
              -- `sign, _ := br.ReadByte()`: the read error is discarded; on
              -- EOF the sign stays the zero byte and the buffer is unchanged
              match (match readByte r1 with
                     | .ok (b, r) => (b, r)
                     | .error _ => ((0 : Byte), r1)) with
              | (sign, r2) =>
                match readN (n - 1) r2 with
                | .error e => .error e
                | .ok (mag, r3) =>
                  let z : ℤ := bytesToNat mag
                  .ok (.vint (if sign = (0x01 : Byte) then -z else z), r3)
        else if tag = tagDec then
          match (match readByte r0 with
                 | .ok (b, r) => (b, r)
                 | .error _ => ((0 : Byte), r0)) with
          | (sign, r1) =>
            match readUvarint r1 with
            | .error e => .error e
            | .ok (u, r2) =>
              match readUvarint r2 with
              | .error e => .error e
              | .ok (ln, r3) =>
                match readN ln r3 with
                | .error e => .error e
                | .ok (coef, r4) =>
                  -- `d.D.Exponent = int32(exp)` truncates the decoded
                  -- zigzag int64 to its low 32 bits
                  .ok (.vdec (sign = (0x01 : Byte)) (toInt32 (zigzagDec u))
                    (bytesToNat coef), r4)
        else if tag = tagArr then
          match readUvarint r0 with
          | .error e => .error e
          | .ok (count, r1) =>
            match decodeMany pc lim fuel count (depth + 1) r1 with
            | .error e => .error e
            | .ok (out, r2) => .ok (.varr out, r2)
        else if tag = tagObj then
          match readUvarint r0 with
          | .error e => .error e
          | .ok (count, r1) =>
            match decodeObjEntries pc lim fuel count (depth + 1) [] r1 with
            | .error e => .error e
            | .ok (obj, r2) => .ok (.vobj obj, r2)
        else if tag = tagUUID then
          match readN 16 r0 with
          | .error e => .error e
          | .ok (u, r1) => .ok (.vuuid u, r1)
        else if tag = tagSet then
          match readUvarint r0 with
          | .error e => .error e
          | .ok (count, r1) =>
            match decodeMany pc lim fuel count (depth + 1) r1 with
            | .error e => .error e
            | .ok (out, r2) => .ok (.vset out, r2)
        else if tag = tagMap then
          match readUvarint r0 with
          | .error e => .error e
          | .ok (count, r1) =>
            match decodeMapEntries pc lim fuel count (depth + 1) [] r1 with
            | .error e => .error e
            | .ok (out, r2) => .ok (.vmap out, r2)
        else if tag = tagEnv then
          match decodeAny pc lim fuel (depth + 1) r0 with
          | .error e => .error e
          | .ok (metaAny, r1) =>
            match metaAny with
            | .vobj m =>
              let t := match lookupKey m keyType with
                       | some (.vstr s) => s
                       | _ => []
              let sch := match lookupKey m keySchema with
                         | some (.vstr s) => s
                         | _ => []
              let ver := match lookupKey m keyVersion with
                         | some (.vstr s) => s
                         | _ => []
              let fs := match lookupKey m keyFeatures with
                        | some (.varr items) => some (collectStrings items)
                        | _ => none
              let cr := match lookupKey m keyCreatedAt with
                        | some (.vts s) => some s
                        | some (.vobj m2) =>
                          (match lookupKey m2 keyValue with
                           | some (.vstr s) => some s
                           | _ => none)
                        | _ => none
              match decodeAny pc lim fuel (depth + 1) r1 with
              | .error e => .error e
              | .ok (body, r2) =>
                -- `Meta.Sig` is never assigned by the decoder
                .ok (.venv t sch ver fs cr none body, r2)
            | _ => .error .badEnvelope
        else .error (.unknownTag tag)
  termination_by structural fuel _ _ => fuel

def decodeMany (pc : Bool) (lim : Limits) : ℕ → ℕ → ℕ → List Byte →
    Except DecErr (List Value × List Byte)
  | _, 0, _, bs => .ok ([], bs)
  | 0, _ + 1, _, _ => .error .outOfFuel
  | fuel + 1, count + 1, depth, bs =>
    match decodeAny pc lim fuel depth bs with
    | .error e => .error e
    | .ok (v, r) =>
      match decodeMany pc lim fuel count depth r with
      | .error e => .error e
      | .ok (vs, r2) => .ok (v :: vs, r2)
  termination_by structural fuel _ _ _ => fuel

def decodeObjEntries (pc : Bool) (lim : Limits) : ℕ → ℕ → ℕ →
    List (List Byte × Value) → List Byte →
    Except DecErr (List (List Byte × Value) × List Byte)
  | _, 0, _, acc, bs => .ok (acc, bs)
  | 0, _ + 1, _, _, _ => .error .outOfFuel
  | fuel + 1, count + 1, depth, acc, bs =>
    match readUvarint bs with
    | .error e => .error e
    | .ok (ln, r1) =>
      match readN ln r1 with
      | .error e => .error e
      | .ok (kb, r2) =>
        match decodeAny pc lim fuel depth r2 with
        | .error e => .error e
        | .ok (val, r3) =>
          if kb = commentKey ∧ ¬ pc then decodeObjEntries pc lim fuel count depth acc r3
          else decodeObjEntries pc lim fuel count depth (objInsert acc kb val) r3
  termination_by structural fuel _ _ _ _ => fuel

/-- The `tagMap` loop: each `(key, value)` pair is decoded and entered
with `out[k] = v` into a `map[any]any`.  The list keeps the pairs in wire
order; the overwrite Go would perform when two decoded keys are equal
under interface equality is not modelled (such duplicate keys only arise
from crafted inputs, on which no theorem below depends; for all other
inputs the list represents the map contents exactly). -/
def decodeMapEntries (pc : Bool) (lim : Limits) : ℕ → ℕ → ℕ →
    List (Value × Value) → List Byte →
    Except DecErr (List (Value × Value) × List Byte)
  | _, 0, _, acc, bs => .ok (acc, bs)
  | 0, _ + 1, _, _, _ => .error .outOfFuel
  | fuel + 1, count + 1, depth, acc, bs =>
    match decodeAny pc lim fuel depth bs with
    | .error e => .error e
    | .ok (k, r1) =>
      match decodeAny pc lim fuel depth r1 with
      | .error e => .error e
      | .ok (v, r2) => decodeMapEntries pc lim fuel count depth (acc ++ [(k, v)]) r2
  termination_by structural fuel _ _ _ _ => fuel

end

/-- `DecodeBinary`: decode from depth 0; trailing bytes after one complete
value are ignored, exactly as in the source (`decodeAny(bytes.NewBuffer(b), 0)`
with no exhaustion check). -/
def DecodeBinary (pc : Bool) (lim : Limits) (b : List Byte) : Except DecErr Value :=
  match decodeAny pc lim (2 * b.length + 2) 0 b with
  | .ok (v, _) => .ok v
  | .error e => .error e

/-! ## Decidable structural equality on `Value`

(not part of the Go source; used to state and decide claims). -/

mutual

def beqV : Value → Value → Bool
  | .vnull, b => match b with | .vnull => true | _ => false
  | .vbool a, b => match b with | .vbool c => a == c | _ => false
  | .vstr a, b => match b with | .vstr c => a == c | _ => false
  | .vint a, b => match b with | .vint c => a == c | _ => false
  | .vdec a c d, b => match b with | .vdec e f g => a == e && c == f && d == g | _ => false
  | .vbin a, b => match b with | .vbin c => a == c | _ => false
  | .vts a, b => match b with | .vts c => a == c | _ => false
  | .vdate a, b => match b with | .vdate c => a == c | _ => false
  | .vtime a, b => match b with | .vtime c => a == c | _ => false
  | .vuuid a, b => match b with | .vuuid c => a == c | _ => false
  | .vlink a, b => match b with | .vlink c => a == c | _ => false
  | .vannot a, b => match b with | .vannot c => a == c | _ => false
  | .varr a, b => match b with | .varr c => beqL a c | _ => false
  | .vobj a, b => match b with | .vobj c => beqF a c | _ => false
  | .vset a, b => match b with | .vset c => beqL a c | _ => false
  | .vmap a, b => match b with | .vmap c => beqM a c | _ => false
  | .venv t1 s1 v1 f1 c1 g1 b1, b =>
    match b with
    | .venv t2 s2 v2 f2 c2 g2 b2 =>
      t1 == t2 && s1 == s2 && v1 == v2 && f1 == f2 && c1 == c2 && beqO g1 g2 && beqV b1 b2
    | _ => false
  termination_by structural a _ => a

def beqL : List Value → List Value → Bool
  | [], [] => true
  | a :: as, b :: bs => beqV a b && beqL as bs
  | _, _ => false
  termination_by structural l _ => l

def beqF : List (List Byte × Value) → List (List Byte × Value) → Bool
  | [], [] => true
  | (k1, a) :: as, (k2, b) :: bs => k1 == k2 && beqV a b && beqF as bs
  | _, _ => false
  termination_by structural l _ => l

def beqM : List (Value × Value) → List (Value × Value) → Bool
  | [], [] => true
  | (k1, a) :: as, (k2, b) :: bs => beqV k1 k2 && beqV a b && beqM as bs
  | _, _ => false
  termination_by structural l _ => l

def beqO : Option Value → Option Value → Bool
  | none, none => true
  | some a, some b => beqV a b
  | _, _ => false
  termination_by structural o _ => o

end

mutual

theorem beqV_iff : ∀ a b : Value, beqV a b = true ↔ a = b
  | .vnull, b => by cases b <;> simp [beqV]
  | .vbool a, b => by cases b <;> simp [beqV]
  | .vstr a, b => by cases b <;> simp [beqV]
  | .vint a, b => by cases b <;> simp [beqV]
  | .vdec a c d, b => by
    cases b <;> simp [beqV]
    tauto
  | .vbin a, b => by cases b <;> simp [beqV]
  | .vts a, b => by cases b <;> simp [beqV]
  | .vdate a, b => by cases b <;> simp [beqV]
  | .vtime a, b => by cases b <;> simp [beqV]
  | .vuuid a, b => by cases b <;> simp [beqV]
  | .vlink a, b => by cases b <;> simp [beqV]
  | .vannot a, b => by cases b <;> simp [beqV]
  | .varr a, b => by
    cases b <;> simp [beqV]
    exact beqL_iff a _
  | .vobj a, b => by
    cases b <;> simp [beqV]
    exact beqF_iff a _
  | .vset a, b => by
    cases b <;> simp [beqV]
    exact beqL_iff a _
  | .vmap a, b => by
    cases b <;> simp [beqV]
    exact beqM_iff a _
  | .venv t1 s1 v1 f1 c1 g1 b1, b => by
    cases b <;> simp [beqV]
    rw [beqO_iff g1 _, beqV_iff b1 _]
    tauto
  termination_by structural a _ => a

theorem beqL_iff : ∀ l m : List Value, beqL l m = true ↔ l = m
  | [], m => by cases m <;> simp [beqL]
  | a :: as, m => by
    cases m <;> simp [beqL]
    rw [beqV_iff a _, beqL_iff as _]
  termination_by structural l _ => l

theorem beqF_iff : ∀ l m : List (List Byte × Value), beqF l m = true ↔ l = m
  | [], m => by cases m <;> simp [beqF]
  | (k, a) :: as, m => by
    cases m with
    | nil => simp [beqF]
    | cons p rest =>
      match p with
      | (k2, b) =>
        simp [beqF]
        rw [beqV_iff a _, beqF_iff as _]
  termination_by structural l _ => l

theorem beqM_iff : ∀ l m : List (Value × Value), beqM l m = true ↔ l = m
  | [], m => by cases m <;> simp [beqM]
  | (k, a) :: as, m => by
    cases m with
    | nil => simp [beqM]
    | cons p rest =>
      match p with
      | (k2, b) =>
        simp [beqM]
        rw [beqV_iff k _, beqV_iff a _, beqM_iff as _]
  termination_by structural l _ => l

theorem beqO_iff : ∀ o p : Option Value, beqO o p = true ↔ o = p
  | none, p => by cases p <;> simp [beqO]
  | some a, p => by
    cases p <;> simp [beqO]
    exact beqV_iff a _
  termination_by structural o _ => o

end

instance : DecidableEq Value := fun a b => decidable_of_iff _ (beqV_iff a b)

/-! ## The pure byte image of the encoder

When `encodeAny` succeeds its output does not depend on `depth` or
`MaxDepth` (those only gate success); `encP` is that byte image as a total
function (same emission logic, guards dropped), proved to agree with
`encodeAny` on success below.  It gives depth-free statements of the
canonical ordering conditions. -/

def featBytesP (fs : Option (List (List Byte))) : List Byte :=
  match fs with
  | none => [tagNull]
  | some l => tagArr :: uvarintEnc l.length ++ (l.map (fun s => tagStr :: lenBytes s)).flatten

mutual

def encP (pc : Bool) : Value → List Byte
  | .vnull => [tagNull]
  | .vbool b => if b then [tagT] else [tagF]
  | .vstr s => tagStr :: lenBytes s
  | .vint z =>
    let sign : Byte := if z < 0 then 0x01 else 0x00
    let mag := natBytesBE z.natAbs
    tagInt :: uvarintEnc (mag.length + 1) ++ sign :: mag
  | .vdec neg e c =>
    let sign : Byte := if neg then 0x01 else 0x00
    tagDec :: sign :: uvarintEnc (zigzagEnc e) ++ lenBytes (natBytesBE c)
  | .vbin bs => tagBin :: lenBytes bs
  | .vts s => tagTS :: lenBytes s
  | .vdate s => tagDate :: lenBytes s
  | .vtime s => tagTime :: lenBytes s
  | .vuuid bs => tagUUID :: bs
  | .vlink s => tagLink :: lenBytes s
  | .vannot s => tagAnnot :: lenBytes s
  | .varr items => tagArr :: uvarintEnc items.length ++ (encPItems pc items).flatten
  | .vobj fields =>
    let fs := encPFields pc fields
    tagObj :: uvarintEnc fs.length ++
      ((fs.insertionSort leKey).map (fun kv => lenBytes kv.1 ++ kv.2)).flatten
  | .vset items =>
    let encs := encPItems pc items
    tagSet :: uvarintEnc encs.length ++ (encs.insertionSort leBytes).flatten
  | .vmap pairs =>
    let kvs := encPPairs pc pairs
    tagMap :: uvarintEnc kvs.length ++
      ((kvs.insertionSort leKey).map (fun p => p.1 ++ p.2)).flatten
  | .venv t sch ver fs cr sg body =>
    let crEntry : List (List Byte × List Byte) :=
      match cr with
      | some ts => [(keyCreatedAt, tagTS :: lenBytes ts)]
      | none => []
    let entries : List (List Byte × List Byte) :=
      crEntry ++ [(keyFeatures, featBytesP fs), (keySchema, tagStr :: lenBytes sch)] ++
        encPSigEntry pc sg ++ [(keyType, tagStr :: lenBytes t), (keyVersion, tagStr :: lenBytes ver)]
    let mb := tagObj :: uvarintEnc entries.length ++
      (entries.map (fun kv => lenBytes kv.1 ++ kv.2)).flatten
    tagEnv :: mb ++ encP pc body
  termination_by structural v => v

def encPSigEntry (pc : Bool) : Option Value → List (List Byte × List Byte)
  | none => []
  | some sv => [(keySig, encP pc sv)]
  termination_by structural o => o

def encPItems (pc : Bool) : List Value → List (List Byte)
  | [] => []
  | v :: vs => encP pc v :: encPItems pc vs
  termination_by structural l => l

def encPFields (pc : Bool) : List (List Byte × Value) → List (List Byte × List Byte)
  | [] => []
  | (k, v) :: rest =>
    if k = commentKey ∧ ¬ pc then encPFields pc rest
    else (k, encP pc v) :: encPFields pc rest
  termination_by structural l => l

def encPPairs (pc : Bool) : List (Value × Value) → List (List Byte × List Byte)
  | [] => []
  | (k, v) :: rest => (encP pc k, encP pc v) :: encPPairs pc rest
  termination_by structural l => l

end

theorem featBytes_eq {maxD depth : ℕ} {fs : Option (List (List Byte))} {fb : List Byte}
    (h : featBytes maxD depth fs = some fb) : fb = featBytesP fs := by
  cases fs with
  | none =>
    simp only [featBytes] at h
    split at h
    · simp at h
    · simp at h
      simp [featBytesP, h]
  | some l =>
    simp only [featBytes] at h
    split at h
    · simp at h
    · split at h
      · simp at h
      · simp at h
        simp [featBytesP, h]

mutual

theorem encodeAny_eq_encP : ∀ (v : Value) (pc : Bool) (maxD depth : ℕ) (e : List Byte),
    encodeAny pc maxD depth v = some e → e = encP pc v
  | .vnull, pc, maxD, depth, e => by
    intro he
    rw [encodeAny] at he
    split at he
    · simp at he
    · simp at he; simp [encP, he]
  | .vbool b, pc, maxD, depth, e => by
    intro he
    rw [encodeAny] at he
    split at he
    · simp at he
    · cases b <;> simp at he <;> simp [encP, he]
  | .vstr s, pc, maxD, depth, e => by
    intro he
    rw [encodeAny] at he
    split at he
    · simp at he
    · simp at he; simp [encP, he]
  | .vint z, pc, maxD, depth, e => by
    intro he
    rw [encodeAny] at he
    split at he
    · simp at he
    · simp at he; simp [encP, he]
  | .vdec neg ex c, pc, maxD, depth, e => by
    intro he
    rw [encodeAny] at he
    split at he
    · simp at he
    · simp at he; simp [encP, he]
  | .vbin bs, pc, maxD, depth, e => by
    intro he
    rw [encodeAny] at he
    split at he
    · simp at he
    · simp at he; simp [encP, he]
  | .vts s, pc, maxD, depth, e => by
    intro he
    rw [encodeAny] at he
    split at he
    · simp at he
    · simp at he; simp [encP, he]
  | .vdate s, pc, maxD, depth, e => by
    intro he
    rw [encodeAny] at he
    split at he
    · simp at he
    · simp at he; simp [encP, he]
  | .vtime s, pc, maxD, depth, e => by
    intro he
    rw [encodeAny] at he
    split at he
    · simp at he
    · simp at he; simp [encP, he]
  | .vuuid bs, pc, maxD, depth, e => by
    intro he
    rw [encodeAny] at he
    split at he
    · simp at he
    · simp at he; simp [encP, he]
  | .vlink s, pc, maxD, depth, e => by
    intro he
    rw [encodeAny] at he
    split at he
    · simp at he
    · simp at he; simp [encP, he]
  | .vannot s, pc, maxD, depth, e => by
    intro he
    rw [encodeAny] at he
    split at he
    · simp at he
    · simp at he; simp [encP, he]
  | .varr items, pc, maxD, depth, e => by
    intro he
    rw [encodeAny] at he
    split at he
    · simp at he
    · cases hE : encodeItems pc maxD (depth + 1) items with
      | none => rw [hE] at he; simp at he
      | some encs =>
        rw [hE] at he
        simp at he
        rw [encodeItems_eq_encP items pc maxD (depth + 1) encs hE] at he
        simp [encP, he]
  | .vobj fields, pc, maxD, depth, e => by
    intro he
    rw [encodeAny] at he
    split at he
    · simp at he
    · cases hE : encodeFields pc maxD (depth + 1) fields with
      | none => rw [hE] at he; simp at he
      | some fs =>
        rw [hE] at he
        simp at he
        rw [encodeFields_eq_encP fields pc maxD (depth + 1) fs hE] at he
        simp [encP, he]
  | .vset items, pc, maxD, depth, e => by
    intro he
    rw [encodeAny] at he
    split at he
    · simp at he
    · cases hE : encodeItems pc maxD (depth + 1) items with
      | none => rw [hE] at he; simp at he
      | some encs =>
        rw [hE] at he
        simp at he
        rw [encodeItems_eq_encP items pc maxD (depth + 1) encs hE] at he
        simp [encP, he]
  | .vmap pairs, pc, maxD, depth, e => by
    intro he
    rw [encodeAny] at he
    split at he
    · simp at he
    · cases hE : encodePairs pc maxD (depth + 1) pairs with
      | none => rw [hE] at he; simp at he
      | some kvs =>
        rw [hE] at he
        simp at he
        rw [encodePairs_eq_encP pairs pc maxD (depth + 1) kvs hE] at he
        simp [encP, he]
  | .venv t sch ver fs cr sg body, pc, maxD, depth, e => by
    intro he
    simp only [encodeAny] at he
    split at he
    · simp at he
    · split at he
      · simp at he
      · split at he
        · simp at he
        · cases hF : featBytes maxD depth fs with
          | none => rw [hF] at he; simp at he
          | some fb =>
            rw [hF] at he
            cases hS : encodeSigEntry pc maxD (depth + 2) sg with
            | none => rw [hS] at he; simp at he
            | some sgE =>
              rw [hS] at he
              cases hB : encodeAny pc maxD (depth + 1) body with
              | none => rw [hB] at he; simp at he
              | some bb =>
                rw [hB] at he
                simp at he
                rw [featBytes_eq hF,
                  encodeSigEntry_eq_encP sg pc maxD (depth + 2) sgE hS,
                  encodeAny_eq_encP body pc maxD (depth + 1) bb hB] at he
                simp [encP, he]
  termination_by structural v => v

theorem encodeSigEntry_eq_encP : ∀ (sg : Option Value) (pc : Bool) (maxD depth : ℕ)
    (sgE : List (List Byte × List Byte)),
    encodeSigEntry pc maxD depth sg = some sgE → sgE = encPSigEntry pc sg
  | none, pc, maxD, depth, sgE => by
    intro h
    simp [encodeSigEntry] at h
    simp [encPSigEntry, h]
  | some sv, pc, maxD, depth, sgE => by
    intro h
    rw [encodeSigEntry] at h
    cases hE : encodeAny pc maxD depth sv with
    | none => rw [hE] at h; simp at h
    | some ev =>
      rw [hE] at h
      simp at h
      rw [encodeAny_eq_encP sv pc maxD depth ev hE] at h
      simp [encPSigEntry, h]
  termination_by structural sg => sg

theorem encodeItems_eq_encP : ∀ (items : List Value) (pc : Bool) (maxD depth : ℕ)
    (encs : List (List Byte)),
    encodeItems pc maxD depth items = some encs → encs = encPItems pc items
  | [], pc, maxD, depth, encs => by
    intro h
    simp [encodeItems] at h
    simp [encPItems, h]
  | v :: vs, pc, maxD, depth, encs => by
    intro h
    rw [encodeItems] at h
    cases hE : encodeAny pc maxD depth v with
    | none => rw [hE] at h; simp at h
    | some ev =>
      rw [hE] at h
      cases hT : encodeItems pc maxD depth vs with
      | none => rw [hT] at h; simp at h
      | some evs =>
        rw [hT] at h
        simp at h
        rw [encodeAny_eq_encP v pc maxD depth ev hE,
          encodeItems_eq_encP vs pc maxD depth evs hT] at h
        simp [encPItems, h]
  termination_by structural items => items

theorem encodeFields_eq_encP : ∀ (fields : List (List Byte × Value)) (pc : Bool)
    (maxD depth : ℕ) (fsE : List (List Byte × List Byte)),
    encodeFields pc maxD depth fields = some fsE → fsE = encPFields pc fields
  | [], pc, maxD, depth, fsE => by
    intro h
    simp [encodeFields] at h
    simp [encPFields, h]
  | (k, v) :: rest, pc, maxD, depth, fsE => by
    intro h
    rw [encodeFields] at h
    rw [encPFields]
    split at h
    · rename_i hc
      rw [if_pos hc]
      exact encodeFields_eq_encP rest pc maxD depth fsE h
    · rename_i hc
      rw [if_neg hc]
      cases hE : encodeAny pc maxD depth v with
      | none => rw [hE] at h; simp at h
      | some ev =>
        rw [hE] at h
        cases hT : encodeFields pc maxD depth rest with
        | none => rw [hT] at h; simp at h
        | some evs =>
          rw [hT] at h
          simp at h
          rw [encodeAny_eq_encP v pc maxD depth ev hE,
            encodeFields_eq_encP rest pc maxD depth evs hT] at h
          simp [h]
  termination_by structural fields => fields

theorem encodePairs_eq_encP : ∀ (pairs : List (Value × Value)) (pc : Bool)
    (maxD depth : ℕ) (kvs : List (List Byte × List Byte)),
    encodePairs pc maxD depth pairs = some kvs → kvs = encPPairs pc pairs
  | [], pc, maxD, depth, kvs => by
    intro h
    simp [encodePairs] at h
    simp [encPPairs, h]
  | (k, v) :: rest, pc, maxD, depth, kvs => by
    intro h
    rw [encodePairs] at h
    cases hK : encodeAny pc maxD depth k with
    | none => rw [hK] at h; simp at h
    | some ke =>
      rw [hK] at h
      cases hV : encodeAny pc maxD depth v with
      | none => rw [hV] at h; simp at h
      | some ve =>
        rw [hV] at h
        cases hT : encodePairs pc maxD depth rest with
        | none => rw [hT] at h; simp at h
        | some evs =>
          rw [hT] at h
          simp at h
          rw [encodeAny_eq_encP k pc maxD depth ke hK,
            encodeAny_eq_encP v pc maxD depth ve hV,
            encodePairs_eq_encP rest pc maxD depth evs hT] at h
          simp [encPPairs, h]
  termination_by structural pairs => pairs

end

/-! ## UTF-8 validity

The codec never validates UTF-8 (`unicode/utf8` is not imported by the
decoder); this predicate is the standard UTF-8 well-formedness condition
(RFC 3629: no overlong forms, no surrogates, nothing above U+10FFFF — the
semantics of Go's `utf8.Valid`), defined here only to *state* claims about
UTF-8. -/

def isCont (b : Byte) : Bool := 0x80 ≤ b.val && b.val ≤ 0xBF

def utf8Valid : List Byte → Bool
  | [] => true
  | c :: cs =>
    if c.val ≤ 0x7F then utf8Valid cs
    else if 0xC2 ≤ c.val ∧ c.val ≤ 0xDF then
      match cs with
      | c1 :: cs2 => isCont c1 && utf8Valid cs2
      | [] => false
    else if c.val = 0xE0 then
      match cs with
      | c1 :: c2 :: cs3 => (0xA0 ≤ c1.val && c1.val ≤ 0xBF) && isCont c2 && utf8Valid cs3
      | _ => false
    else if (0xE1 ≤ c.val ∧ c.val ≤ 0xEC) ∨ c.val = 0xEE ∨ c.val = 0xEF then
      match cs with
      | c1 :: c2 :: cs3 => isCont c1 && isCont c2 && utf8Valid cs3
      | _ => false
    else if c.val = 0xED then
      match cs with
      | c1 :: c2 :: cs3 => (0x80 ≤ c1.val && c1.val ≤ 0x9F) && isCont c2 && utf8Valid cs3
      | _ => false
    else if c.val = 0xF0 then
      match cs with
      | c1 :: c2 :: c3 :: cs4 =>
        (0x90 ≤ c1.val && c1.val ≤ 0xBF) && isCont c2 && isCont c3 && utf8Valid cs4
      | _ => false
    else if 0xF1 ≤ c.val ∧ c.val ≤ 0xF3 then
      match cs with
      | c1 :: c2 :: c3 :: cs4 => isCont c1 && isCont c2 && isCont c3 && utf8Valid cs4
      | _ => false
    else if c.val = 0xF4 then
      match cs with
      | c1 :: c2 :: c3 :: cs4 =>
        (0x80 ≤ c1.val && c1.val ≤ 0x8F) && isCont c2 && isCont c3 && utf8Valid cs4
      | _ => false
    else false

/-! ## Canonical values

`isCanon` delimits the values on which the binary round trip is proved
exact: every length and count representable as a `uint64` (always true of
real Go values, where lengths are `int`), UUIDs of exactly 16 bytes, Dec
exponents in `int32` range (always true of `apd.Decimal`), object field
lists strictly sorted by key (the association-list rendering of a Go map
whose canonical serialization order equals the given order) without
`"$comment"` keys when `PreserveComments` is false, Set elements and Map
entries already in their canonical serialized order, envelope `sig` absent
(the decoder drops it — see C1/C6), and envelope feature strings valid
UTF-8 (their encoding goes through `json.Marshal`). -/

def lenOK (s : List Byte) : Bool := decide (s.length < 2 ^ 64)

/-- Strictly ascending chain under `blt` (consecutive elements). -/
def strictAsc : List (List Byte) → Bool
  | [] => true
  | [_] => true
  | a :: b :: t => blt a b && strictAsc (b :: t)

/-- Weakly ascending chain under the encoded-byte order (`¬ blt next prev`). -/
def weakAsc : List (List Byte) → Bool
  | [] => true
  | [_] => true
  | a :: b :: t => !blt b a && weakAsc (b :: t)

mutual

def isCanon (pc : Bool) : Value → Bool
  | .vnull => true
  | .vbool _ => true
  | .vstr s => lenOK s
  | .vint z => decide ((natBytesBE z.natAbs).length + 1 < 2 ^ 64)
  | .vdec _ e c => decide (-(2 ^ 31) ≤ e) && decide (e < 2 ^ 31) && lenOK (natBytesBE c)
  | .vbin bs => lenOK bs
  | .vts s => lenOK s
  | .vdate s => lenOK s
  | .vtime s => lenOK s
  | .vuuid bs => decide (bs.length = 16)
  | .vlink s => lenOK s
  | .vannot s => lenOK s
  | .varr items => decide (items.length < 2 ^ 64) && isCanonItems pc items
  | .vobj fields =>
    decide (fields.length < 2 ^ 64) &&
      strictAsc (fields.map (fun kv => kv.1)) &&
      (pc || fields.all (fun kv => decide (¬ kv.1 = commentKey))) &&
      fields.all (fun kv => lenOK kv.1) &&
      isCanonFields pc fields
  | .vset items =>
    decide (items.length < 2 ^ 64) &&
      weakAsc (items.map (encP pc)) &&
      isCanonItems pc items
  | .vmap pairs =>
    decide (pairs.length < 2 ^ 64) &&
      weakAsc (pairs.map (fun p => encP pc p.1)) &&
      isCanonPairs pc pairs
  | .venv t sch ver fs cr sg body =>
    lenOK t && lenOK sch && lenOK ver &&
      (match fs with
       | none => true
       | some l => decide (l.length < 2 ^ 64) && l.all (fun x => lenOK x && utf8Valid x)) &&
      (match cr with
       | none => true
       | some ts => lenOK ts) &&
      (match sg with
       | none => true
       | some _ => false) &&
      isCanon pc body
  termination_by structural v => v

def isCanonItems (pc : Bool) : List Value → Bool
  | [] => true
  | v :: vs => isCanon pc v && isCanonItems pc vs
  termination_by structural l => l

def isCanonFields (pc : Bool) : List (List Byte × Value) → Bool
  | [] => true
  | (_, v) :: rest => isCanon pc v && isCanonFields pc rest
  termination_by structural l => l

def isCanonPairs (pc : Bool) : List (Value × Value) → Bool
  | [] => true
  | (k, v) :: rest => isCanon pc k && isCanon pc v && isCanonPairs pc rest
  termination_by structural l => l

end

/-! ## Sorting lemmas -/

theorem insertionSort_leBytes_id : ∀ l : List (List Byte),
    weakAsc l = true → l.insertionSort leBytes = l := by
  intro l
  induction l with
  | nil => intro _; rfl
  | cons a t ih =>
    intro h
    have ht : weakAsc t = true := by
      cases t with
      | nil => rfl
      | cons b t' => simp [weakAsc] at h; exact h.2
    rw [List.insertionSort, ih ht]
    cases t with
    | nil => rfl
    | cons b t' =>
      simp [weakAsc] at h
      rw [List.orderedInsert, if_pos]
      exact h.1

theorem insertionSort_leKey_id : ∀ l : List (List Byte × List Byte),
    weakAsc (l.map (fun kv => kv.1)) = true → l.insertionSort leKey = l := by
  intro l
  induction l with
  | nil => intro _; rfl
  | cons a t ih =>
    intro h
    have ht : weakAsc (t.map (fun kv => kv.1)) = true := by
      cases t with
      | nil => rfl
      | cons b t' => simp [weakAsc] at h ⊢; exact h.2
    rw [List.insertionSort, ih ht]
    cases t with
    | nil => rfl
    | cons b t' =>
      simp [weakAsc] at h
      rw [List.orderedInsert, if_pos]
      exact h.1

theorem strictAsc_weakAsc : ∀ l : List (List Byte), strictAsc l = true → weakAsc l = true := by
  intro l
  induction l with
  | nil => intro _; rfl
  | cons a t ih =>
    intro h
    cases t with
    | nil => rfl
    | cons b t' =>
      simp [strictAsc] at h
      simp [weakAsc]
      exact ⟨blt_asymm _ _ h.1, ih h.2⟩

/-! ## Shape lemmas for the encoder helpers -/

theorem encPFields_no_comment (pc : Bool) :
    ∀ fields : List (List Byte × Value),
      (pc = true ∨ ∀ kv ∈ fields, ¬ kv.1 = commentKey) →
      encPFields pc fields = fields.map (fun kv => (kv.1, encP pc kv.2)) := by
  intro fields
  induction fields with
  | nil => intro _; rfl
  | cons kv rest ih =>
    intro h
    match kv with
    | (k, v) =>
      rw [encPFields]
      have hk : ¬ (k = commentKey ∧ ¬ pc = true) := by
        cases h with
        | inl hpc => simp [hpc]
        | inr hall =>
          have := hall (k, v) (by simp)
          simp at this
          simp [this]
      rw [if_neg hk, List.map_cons]
      congr 1
      apply ih
      cases h with
      | inl hpc => exact Or.inl hpc
      | inr hall => exact Or.inr (fun kv hkv => hall kv (List.mem_cons_of_mem _ hkv))

theorem encPPairs_eq_map (pc : Bool) :
    ∀ pairs : List (Value × Value),
      encPPairs pc pairs = pairs.map (fun p => (encP pc p.1, encP pc p.2)) := by
  intro pairs
  induction pairs with
  | nil => rfl
  | cons p rest ih =>
    match p with
    | (k, v) => rw [encPPairs, ih]; rfl

theorem encPItems_eq_map (pc : Bool) :
    ∀ items : List Value, encPItems pc items = items.map (encP pc) := by
  intro items
  induction items with
  | nil => rfl
  | cons v rest ih => rw [encPItems, ih]; rfl

theorem uvarintEncAux_ne_nil : ∀ fuel n, 1 ≤ (uvarintEncAux fuel n).length := by
  intro fuel n
  cases fuel with
  | zero => simp [uvarintEncAux]
  | succ f =>
    rw [uvarintEncAux]
    split <;> simp

theorem uvarintEnc_ne_nil (n : ℕ) : 1 ≤ (uvarintEnc n).length := uvarintEncAux_ne_nil n n

theorem encP_ne_nil (pc : Bool) (v : Value) : 1 ≤ (encP pc v).length := by
  cases v <;> simp [encP]
  case vbool b => cases b <;> simp

/-! ## Unfolding equations for the decoder

Stated by hand (and proved by `rfl` / case analysis on the fuel) so later
proofs can rewrite with them. -/

theorem decodeAny_zero (pc : Bool) (lim : Limits) (depth : ℕ) (bs : List Byte) :
    decodeAny pc lim 0 depth bs = .error .outOfFuel := rfl

theorem decodeMany_nil (pc : Bool) (lim : Limits) (fuel depth : ℕ) (bs : List Byte) :
    decodeMany pc lim fuel 0 depth bs = .ok ([], bs) := by
  cases fuel <;> rfl

theorem decodeMany_succ (pc : Bool) (lim : Limits) (f count depth : ℕ) (bs : List Byte) :
    decodeMany pc lim (f + 1) (count + 1) depth bs =
      (match decodeAny pc lim f depth bs with
       | .error e => .error e
       | .ok (v, r) =>
         match decodeMany pc lim f count depth r with
         | .error e => .error e
         | .ok (vs, r2) => .ok (v :: vs, r2)) := rfl

theorem decodeObjEntries_nil (pc : Bool) (lim : Limits) (fuel depth : ℕ)
    (acc : List (List Byte × Value)) (bs : List Byte) :
    decodeObjEntries pc lim fuel 0 depth acc bs = .ok (acc, bs) := by
  cases fuel <;> rfl

theorem decodeObjEntries_succ (pc : Bool) (lim : Limits) (f count depth : ℕ)
    (acc : List (List Byte × Value)) (bs : List Byte) :
    decodeObjEntries pc lim (f + 1) (count + 1) depth acc bs =
      (match readUvarint bs with
       | .error e => .error e
       | .ok (ln, r1) =>
         match readN ln r1 with
         | .error e => .error e
         | .ok (kb, r2) =>
           match decodeAny pc lim f depth r2 with
           | .error e => .error e
           | .ok (val, r3) =>
             if kb = commentKey ∧ ¬ pc then decodeObjEntries pc lim f count depth acc r3
             else decodeObjEntries pc lim f count depth (objInsert acc kb val) r3) := rfl

theorem decodeMapEntries_nil (pc : Bool) (lim : Limits) (fuel depth : ℕ)
    (acc : List (Value × Value)) (bs : List Byte) :
    decodeMapEntries pc lim fuel 0 depth acc bs = .ok (acc, bs) := by
  cases fuel <;> rfl

theorem decodeMapEntries_succ (pc : Bool) (lim : Limits) (f count depth : ℕ)
    (acc : List (Value × Value)) (bs : List Byte) :
    decodeMapEntries pc lim (f + 1) (count + 1) depth acc bs =
      (match decodeAny pc lim f depth bs with
       | .error e => .error e
       | .ok (k, r1) =>
         match decodeAny pc lim f depth r1 with
         | .error e => .error e
         | .ok (v, r2) => decodeMapEntries pc lim f count depth (acc ++ [(k, v)]) r2) := rfl

/-! ## Generic loop lemmas for the decoder

Each is parametric in a per-entry decoding fact (discharged either by the
structural induction hypothesis of the round-trip theorem or by the
standalone scalar lemmas used for envelope metadata). -/

theorem decodeManyGen (pc : Bool) (lim : Limits) (depth : ℕ) :
    ∀ (xs : List (List Byte × Value)) (rest : List Byte) (fuel : ℕ),
      (∀ p ∈ xs, ∀ (f : ℕ) (r : List Byte), 2 * p.1.length ≤ f →
        decodeAny pc lim f depth (p.1 ++ r) = .ok (p.2, r)) →
      (∀ p ∈ xs, 1 ≤ p.1.length) →
      2 * ((xs.map (fun p => p.1)).flatten).length + 1 ≤ fuel →
      decodeMany pc lim fuel xs.length depth ((xs.map (fun p => p.1)).flatten ++ rest) =
        .ok (xs.map (fun p => p.2), rest) := by
  intro xs
  induction xs with
  | nil =>
    intro rest fuel _ _ _
    simp only [List.map_nil, List.flatten_nil, List.nil_append, List.length_nil]
    rw [decodeMany_nil]
  | cons p t ih =>
    intro rest fuel hdec hne hfuel
    obtain ⟨e, v⟩ := p
    have hd := hdec (e, v) (List.mem_cons_self _ _)
    have he1 : 1 ≤ e.length := hne (e, v) (List.mem_cons_self _ _)
    simp only at hd he1
    simp only [List.map_cons, List.flatten_cons, List.length_append, List.length_cons] at hfuel ⊢
    obtain ⟨f, rfl⟩ : ∃ f, fuel = f + 1 := ⟨fuel - 1, by omega⟩
    rw [List.append_assoc, decodeMany_succ,
      hd f ((t.map (fun p => p.1)).flatten ++ rest) (by omega)]
    dsimp only
    rw [ih rest f
      (fun q hq => hdec q (List.mem_cons_of_mem _ hq))
      (fun q hq => hne q (List.mem_cons_of_mem _ hq))
      (by omega)]

theorem objInsert_fresh (acc : List (List Byte × Value)) (k : List Byte) (v : Value)
    (h : ∀ kv ∈ acc, ¬ kv.1 = k) : objInsert acc k v = acc ++ [(k, v)] := by
  unfold objInsert
  congr 1
  apply List.filter_eq_self.mpr
  intro kv hkv
  simpa using h kv hkv

theorem decodeObjGen (pc : Bool) (lim : Limits) (depth : ℕ) :
    ∀ (xs : List (List Byte × List Byte × Value)) (acc : List (List Byte × Value))
      (rest : List Byte) (fuel : ℕ),
      (∀ p ∈ xs, ∀ (f : ℕ) (r : List Byte), 2 * p.2.1.length ≤ f →
        decodeAny pc lim f depth (p.2.1 ++ r) = .ok (p.2.2, r)) →
      (∀ p ∈ xs, 1 ≤ p.2.1.length) →
      (∀ p ∈ xs, p.1.length < 2 ^ 64) →
      (∀ p ∈ xs, p.1 = commentKey → pc = true) →
      (∀ p ∈ xs, ∀ kv ∈ acc, ¬ kv.1 = p.1) →
      xs.Pairwise (fun a b => ¬ a.1 = b.1) →
      2 * ((xs.map (fun p => lenBytes p.1 ++ p.2.1)).flatten).length + 1 ≤ fuel →
      decodeObjEntries pc lim fuel xs.length depth acc
          ((xs.map (fun p => lenBytes p.1 ++ p.2.1)).flatten ++ rest) =
        .ok (acc ++ xs.map (fun p => (p.1, p.2.2)), rest) := by
  intro xs
  induction xs with
  | nil =>
    intro acc rest fuel _ _ _ _ _ _ _
    simp only [List.map_nil, List.flatten_nil, List.nil_append, List.length_nil, List.append_nil]
    rw [decodeObjEntries_nil]
  | cons p t ih =>
    intro acc rest fuel hdec hne hklen hcmt hfresh hnodup hfuel
    obtain ⟨k, e, v⟩ := p
    have hd := hdec (k, e, v) (List.mem_cons_self _ _)
    have he1 : 1 ≤ e.length := hne (k, e, v) (List.mem_cons_self _ _)
    have hk64 : k.length < 2 ^ 64 := hklen (k, e, v) (List.mem_cons_self _ _)
    have hkc : k = commentKey → pc = true := hcmt (k, e, v) (List.mem_cons_self _ _)
    simp only at hd he1 hk64 hkc
    simp only [List.map_cons, List.flatten_cons, List.length_cons] at hfuel ⊢
    rw [show lenBytes k = uvarintEnc k.length ++ k from rfl] at hfuel ⊢
    simp only [List.length_append] at hfuel
    have huv := uvarintEnc_ne_nil k.length
    obtain ⟨f, rfl⟩ : ∃ f, fuel = f + 1 := ⟨fuel - 1, by omega⟩
    rw [List.append_assoc, List.append_assoc, List.append_assoc, decodeObjEntries_succ,
      readUvarint_enc hk64 _]
    dsimp only
    rw [readN_append k _]
    dsimp only
    rw [hd f _ (by omega)]
    dsimp only
    have hcond : ¬ (k = commentKey ∧ ¬ pc = true) := by
      intro hcc
      exact hcc.2 (hkc hcc.1)
    rw [if_neg hcond]
    rw [objInsert_fresh acc k v (fun kv hkv => hfresh (k, e, v) (List.mem_cons_self _ _) kv hkv)]
    have step := ih (acc ++ [(k, v)]) rest f
      (fun q hq => hdec q (List.mem_cons_of_mem _ hq))
      (fun q hq => hne q (List.mem_cons_of_mem _ hq))
      (fun q hq => hklen q (List.mem_cons_of_mem _ hq))
      (fun q hq => hcmt q (List.mem_cons_of_mem _ hq))
      (by
        intro q hq kv hkv
        rcases List.mem_append.mp hkv with h1 | h1
        · exact hfresh q (List.mem_cons_of_mem _ hq) kv h1
        · simp at h1
          subst h1
          exact (List.pairwise_cons.mp hnodup).1 q hq)
      (List.pairwise_cons.mp hnodup).2
      (by omega)
    rw [step]
    simp

theorem decodeMapGen (pc : Bool) (lim : Limits) (depth : ℕ) :
    ∀ (xs : List ((List Byte × Value) × (List Byte × Value)))
      (acc : List (Value × Value)) (rest : List Byte) (fuel : ℕ),
      (∀ p ∈ xs, ∀ (f : ℕ) (r : List Byte), 2 * p.1.1.length ≤ f →
        decodeAny pc lim f depth (p.1.1 ++ r) = .ok (p.1.2, r)) →
      (∀ p ∈ xs, ∀ (f : ℕ) (r : List Byte), 2 * p.2.1.length ≤ f →
        decodeAny pc lim f depth (p.2.1 ++ r) = .ok (p.2.2, r)) →
      (∀ p ∈ xs, 1 ≤ p.1.1.length ∧ 1 ≤ p.2.1.length) →
      2 * ((xs.map (fun p => p.1.1 ++ p.2.1)).flatten).length + 1 ≤ fuel →
      decodeMapEntries pc lim fuel xs.length depth acc
          ((xs.map (fun p => p.1.1 ++ p.2.1)).flatten ++ rest) =
        .ok (acc ++ xs.map (fun p => (p.1.2, p.2.2)), rest) := by
  intro xs
  induction xs with
  | nil =>
    intro acc rest fuel _ _ _ _
    simp only [List.map_nil, List.flatten_nil, List.nil_append, List.length_nil, List.append_nil]
    rw [decodeMapEntries_nil]
  | cons p t ih =>
    intro acc rest fuel hk hv hne hfuel
    obtain ⟨⟨ke, kv⟩, ve, vv⟩ := p
    have hdk := hk ((ke, kv), ve, vv) (List.mem_cons_self _ _)
    have hdv := hv ((ke, kv), ve, vv) (List.mem_cons_self _ _)
    have h1 := hne ((ke, kv), ve, vv) (List.mem_cons_self _ _)
    simp only at hdk hdv h1
    simp only [List.map_cons, List.flatten_cons, List.length_append, List.length_cons] at hfuel ⊢
    obtain ⟨f, rfl⟩ : ∃ f, fuel = f + 1 := ⟨fuel - 1, by omega⟩
    rw [List.append_assoc, List.append_assoc, decodeMapEntries_succ,
      hdk f _ (by omega)]
    dsimp only
    rw [hdv f _ (by omega)]
    dsimp only
    have step := ih (acc ++ [(kv, vv)]) rest f
      (fun q hq => hk q (List.mem_cons_of_mem _ hq))
      (fun q hq => hv q (List.mem_cons_of_mem _ hq))
      (fun q hq => hne q (List.mem_cons_of_mem _ hq))
      (by omega)
    rw [step]
    simp

/-! ## Per-tag unfolding of `decodeAny` at positive fuel

Each lemma restates the branch of the decoder reached for a concrete tag
byte (the tag comparisons reduce definitionally). -/

theorem decodeAny_null (pc : Bool) (lim : Limits) (f depth : ℕ) (r : List Byte) :
    decodeAny pc lim (f + 1) depth (tagNull :: r) =
      (if depth > lim.MaxDepth then .error .tooDeep else .ok (.vnull, r)) := rfl

theorem decodeAny_false (pc : Bool) (lim : Limits) (f depth : ℕ) (r : List Byte) :
    decodeAny pc lim (f + 1) depth (tagF :: r) =
      (if depth > lim.MaxDepth then .error .tooDeep else .ok (.vbool false, r)) := rfl

theorem decodeAny_true (pc : Bool) (lim : Limits) (f depth : ℕ) (r : List Byte) :
    decodeAny pc lim (f + 1) depth (tagT :: r) =
      (if depth > lim.MaxDepth then .error .tooDeep else .ok (.vbool true, r)) := rfl

theorem decodeAny_str (pc : Bool) (lim : Limits) (f depth : ℕ) (r : List Byte) :
    decodeAny pc lim (f + 1) depth (tagStr :: r) =
      (if depth > lim.MaxDepth then .error .tooDeep
       else
         match readUvarint r with
         | .error e => .error e
         | .ok (n, r1) =>
           match readN n r1 with
           | .error e => .error e
           | .ok (sb, r2) => .ok (.vstr sb, r2)) := rfl

theorem decodeAny_ts (pc : Bool) (lim : Limits) (f depth : ℕ) (r : List Byte) :
    decodeAny pc lim (f + 1) depth (tagTS :: r) =
      (if depth > lim.MaxDepth then .error .tooDeep
       else
         match readUvarint r with
         | .error e => .error e
         | .ok (n, r1) =>
           match readN n r1 with
           | .error e => .error e
           | .ok (sb, r2) => .ok (.vts sb, r2)) := rfl

theorem decodeAny_date (pc : Bool) (lim : Limits) (f depth : ℕ) (r : List Byte) :
    decodeAny pc lim (f + 1) depth (tagDate :: r) =
      (if depth > lim.MaxDepth then .error .tooDeep
       else
         match readUvarint r with
         | .error e => .error e
         | .ok (n, r1) =>
           match readN n r1 with
           | .error e => .error e
           | .ok (sb, r2) => .ok (.vdate sb, r2)) := rfl

theorem decodeAny_time (pc : Bool) (lim : Limits) (f depth : ℕ) (r : List Byte) :
    decodeAny pc lim (f + 1) depth (tagTime :: r) =
      (if depth > lim.MaxDepth then .error .tooDeep
       else
         match readUvarint r with
         | .error e => .error e
         | .ok (n, r1) =>
           match readN n r1 with
           | .error e => .error e
           | .ok (sb, r2) => .ok (.vtime sb, r2)) := rfl

theorem decodeAny_link (pc : Bool) (lim : Limits) (f depth : ℕ) (r : List Byte) :
    decodeAny pc lim (f + 1) depth (tagLink :: r) =
      (if depth > lim.MaxDepth then .error .tooDeep
       else
         match readUvarint r with
         | .error e => .error e
         | .ok (n, r1) =>
           match readN n r1 with
           | .error e => .error e
           | .ok (sb, r2) => .ok (.vlink sb, r2)) := rfl

theorem decodeAny_annot (pc : Bool) (lim : Limits) (f depth : ℕ) (r : List Byte) :
    decodeAny pc lim (f + 1) depth (tagAnnot :: r) =
      (if depth > lim.MaxDepth then .error .tooDeep
       else
         match readUvarint r with
         | .error e => .error e
         | .ok (n, r1) =>
           match readN n r1 with
           | .error e => .error e
           | .ok (sb, r2) => .ok (.vannot sb, r2)) := rfl

theorem decodeAny_bin (pc : Bool) (lim : Limits) (f depth : ℕ) (r : List Byte) :
    decodeAny pc lim (f + 1) depth (tagBin :: r) =
      (if depth > lim.MaxDepth then .error .tooDeep
       else
         match readUvarint r with
         | .error e => .error e
         | .ok (n, r1) =>
           match readN n r1 with
           | .error e => .error e
           | .ok (sb, r2) => .ok (.vbin sb, r2)) := rfl

theorem decodeAny_int (pc : Bool) (lim : Limits) (f depth : ℕ) (r : List Byte) :
    decodeAny pc lim (f + 1) depth (tagInt :: r) =
      (if depth > lim.MaxDepth then .error .tooDeep
       else
         match readUvarint r with
         | .error e => .error e
         | .ok (n, r1) =>
           if n = 0 then .ok (.vint 0, r1)
           else
             match (match readByte r1 with
                    | .ok (b, r) => (b, r)
                    | .error _ => ((0 : Byte), r1)) with
             | (sign, r2) =>
               match readN (n - 1) r2 with
               | .error e => .error e
               | .ok (mag, r3) =>
                 let z : ℤ := bytesToNat mag
                 .ok (.vint (if sign = (0x01 : Byte) then -z else z), r3)) := rfl

theorem decodeAny_dec (pc : Bool) (lim : Limits) (f depth : ℕ) (r : List Byte) :
    decodeAny pc lim (f + 1) depth (tagDec :: r) =
      (if depth > lim.MaxDepth then .error .tooDeep
       else
         match (match readByte r with
                | .ok (b, r2) => (b, r2)
                | .error _ => ((0 : Byte), r)) with
         | (sign, r1) =>
           match readUvarint r1 with
           | .error e => .error e
           | .ok (u, r2) =>
             match readUvarint r2 with
             | .error e => .error e
             | .ok (ln, r3) =>
               match readN ln r3 with
               | .error e => .error e
               | .ok (coef, r4) =>
                 .ok (.vdec (sign = (0x01 : Byte)) (toInt32 (zigzagDec u))
                   (bytesToNat coef), r4)) := rfl

theorem decodeAny_arr (pc : Bool) (lim : Limits) (f depth : ℕ) (r : List Byte) :
    decodeAny pc lim (f + 1) depth (tagArr :: r) =
      (if depth > lim.MaxDepth then .error .tooDeep
       else
         match readUvarint r with
         | .error e => .error e
         | .ok (count, r1) =>
           match decodeMany pc lim f count (depth + 1) r1 with
           | .error e => .error e
           | .ok (out, r2) => .ok (.varr out, r2)) := rfl

theorem decodeAny_obj (pc : Bool) (lim : Limits) (f depth : ℕ) (r : List Byte) :
    decodeAny pc lim (f + 1) depth (tagObj :: r) =
      (if depth > lim.MaxDepth then .error .tooDeep
       else
         match readUvarint r with
         | .error e => .error e
         | .ok (count, r1) =>
           match decodeObjEntries pc lim f count (depth + 1) [] r1 with
           | .error e => .error e
           | .ok (obj, r2) => .ok (.vobj obj, r2)) := rfl

theorem decodeAny_uuid (pc : Bool) (lim : Limits) (f depth : ℕ) (r : List Byte) :
    decodeAny pc lim (f + 1) depth (tagUUID :: r) =
      (if depth > lim.MaxDepth then .error .tooDeep
       else
         match readN 16 r with
         | .error e => .error e
         | .ok (u, r1) => .ok (.vuuid u, r1)) := rfl

theorem decodeAny_set (pc : Bool) (lim : Limits) (f depth : ℕ) (r : List Byte) :
    decodeAny pc lim (f + 1) depth (tagSet :: r) =
      (if depth > lim.MaxDepth then .error .tooDeep
       else
         match readUvarint r with
         | .error e => .error e
         | .ok (count, r1) =>
           match decodeMany pc lim f count (depth + 1) r1 with
           | .error e => .error e
           | .ok (out, r2) => .ok (.vset out, r2)) := rfl

theorem decodeAny_map (pc : Bool) (lim : Limits) (f depth : ℕ) (r : List Byte) :
    decodeAny pc lim (f + 1) depth (tagMap :: r) =
      (if depth > lim.MaxDepth then .error .tooDeep
       else
         match readUvarint r with
         | .error e => .error e
         | .ok (count, r1) =>
           match decodeMapEntries pc lim f count (depth + 1) [] r1 with
           | .error e => .error e
           | .ok (out, r2) => .ok (.vmap out, r2)) := rfl

theorem decodeAny_env (pc : Bool) (lim : Limits) (f depth : ℕ) (r : List Byte) :
    decodeAny pc lim (f + 1) depth (tagEnv :: r) =
      (if depth > lim.MaxDepth then .error .tooDeep
       else
         match decodeAny pc lim f (depth + 1) r with
         | .error e => .error e
         | .ok (metaAny, r1) =>
           match metaAny with
           | .vobj m =>
             let t := match lookupKey m keyType with
                      | some (.vstr s) => s
                      | _ => []
             let sch := match lookupKey m keySchema with
                        | some (.vstr s) => s
                        | _ => []
             let ver := match lookupKey m keyVersion with
                        | some (.vstr s) => s
                        | _ => []
             let fs := match lookupKey m keyFeatures with
                       | some (.varr items) => some (collectStrings items)
                       | _ => none
             let cr := match lookupKey m keyCreatedAt with
                       | some (.vts s) => some s
                       | some (.vobj m2) =>
                         (match lookupKey m2 keyValue with
                          | some (.vstr s) => some s
                          | _ => none)
                       | _ => none
             match decodeAny pc lim f (depth + 1) r1 with
             | .error e => .error e
             | .ok (body, r2) => .ok (.venv t sch ver fs cr none body, r2)
           | _ => .error .badEnvelope
       ) := rfl

/-! ## Bridge lemmas -/

theorem isCanonItems_mem (pc : Bool) :
    ∀ (l : List Value), isCanonItems pc l = true → ∀ v ∈ l, isCanon pc v = true := by
  intro l
  induction l with
  | nil => intro _ v hv; simp at hv
  | cons a t ih =>
    intro h v hv
    rw [isCanonItems] at h
    simp at h
    rcases List.mem_cons.mp hv with h1 | h1
    · rw [h1]; exact h.1
    · exact ih h.2 v h1

theorem isCanonFields_mem (pc : Bool) :
    ∀ (l : List (List Byte × Value)), isCanonFields pc l = true →
      ∀ kv ∈ l, isCanon pc kv.2 = true := by
  intro l
  induction l with
  | nil => intro _ kv hkv; simp at hkv
  | cons a t ih =>
    intro h kv hkv
    obtain ⟨k, v⟩ := a
    rw [isCanonFields] at h
    simp at h
    rcases List.mem_cons.mp hkv with h1 | h1
    · rw [h1]; exact h.1
    · exact ih h.2 kv h1

theorem isCanonPairs_mem (pc : Bool) :
    ∀ (l : List (Value × Value)), isCanonPairs pc l = true →
      ∀ p ∈ l, isCanon pc p.1 = true ∧ isCanon pc p.2 = true := by
  intro l
  induction l with
  | nil => intro _ p hp; simp at hp
  | cons a t ih =>
    intro h p hp
    obtain ⟨k, v⟩ := a
    rw [isCanonPairs] at h
    simp at h
    rcases List.mem_cons.mp hp with h1 | h1
    · rw [h1]
      exact ⟨h.1.1, h.1.2⟩
    · exact ih h.2 p h1

theorem encodeItems_mem_inv (pc : Bool) (maxD depth : ℕ) :
    ∀ (items : List Value) (encs : List (List Byte)),
      encodeItems pc maxD depth items = some encs →
      ∀ v ∈ items, ∃ e, encodeAny pc maxD depth v = some e := by
  intro items
  induction items with
  | nil => intro encs _ v hv; simp at hv
  | cons a t ih =>
    intro encs h v hv
    rw [encodeItems] at h
    cases hE : encodeAny pc maxD depth a with
    | none => rw [hE] at h; simp at h
    | some e =>
      rw [hE] at h
      rcases List.mem_cons.mp hv with h1 | h1
      · exact ⟨e, by rw [h1]; exact hE⟩
      · cases hT : encodeItems pc maxD depth t with
        | none => rw [hT] at h; simp at h
        | some es => exact ih es hT v h1

theorem encodeFields_mem_inv (pc : Bool) (maxD depth : ℕ) :
    ∀ (fields : List (List Byte × Value)) (fs : List (List Byte × List Byte)),
      encodeFields pc maxD depth fields = some fs →
      ∀ kv ∈ fields, ¬ (kv.1 = commentKey ∧ ¬ pc = true) →
        ∃ e, encodeAny pc maxD depth kv.2 = some e := by
  intro fields
  induction fields with
  | nil => intro fs _ kv hkv; simp at hkv
  | cons a t ih =>
    intro fs h kv hkv hnc
    obtain ⟨k, v⟩ := a
    rw [encodeFields] at h
    rcases List.mem_cons.mp hkv with h1 | h1
    · by_cases hc : k = commentKey ∧ ¬ pc = true
      · exfalso
        apply hnc
        rw [h1]
        exact hc
      · rw [if_neg hc] at h
        cases hE : encodeAny pc maxD depth v with
        | none => rw [hE] at h; simp at h
        | some e =>
          refine ⟨e, ?_⟩
          rw [h1]
          exact hE
    · by_cases hc : k = commentKey ∧ ¬ pc = true
      · rw [if_pos hc] at h
        exact ih fs h kv h1 hnc
      · rw [if_neg hc] at h
        cases hE : encodeAny pc maxD depth v with
        | none => rw [hE] at h; simp at h
        | some e =>
          rw [hE] at h
          cases hT : encodeFields pc maxD depth t with
          | none => rw [hT] at h; simp at h
          | some es => exact ih es hT kv h1 hnc

theorem encodePairs_mem_inv (pc : Bool) (maxD depth : ℕ) :
    ∀ (pairs : List (Value × Value)) (kvs : List (List Byte × List Byte)),
      encodePairs pc maxD depth pairs = some kvs →
      ∀ p ∈ pairs, (∃ e, encodeAny pc maxD depth p.1 = some e) ∧
        (∃ e, encodeAny pc maxD depth p.2 = some e) := by
  intro pairs
  induction pairs with
  | nil => intro kvs _ p hp; simp at hp
  | cons a t ih =>
    intro kvs h p hp
    obtain ⟨k, v⟩ := a
    rw [encodePairs] at h
    cases hK : encodeAny pc maxD depth k with
    | none => rw [hK] at h; simp at h
    | some ke =>
      rw [hK] at h
      cases hV : encodeAny pc maxD depth v with
      | none => rw [hV] at h; simp at h
      | some ve =>
        rw [hV] at h
        rcases List.mem_cons.mp hp with h1 | h1
        · constructor
          · exact ⟨ke, by rw [h1]; exact hK⟩
          · exact ⟨ve, by rw [h1]; exact hV⟩
        · cases hT : encodePairs pc maxD depth t with
          | none => rw [hT] at h; simp at h
          | some es => exact ih es hT p h1

theorem strictAsc_head_blt : ∀ (t : List (List Byte)) (a : List Byte),
    strictAsc (a :: t) = true → ∀ b ∈ t, blt a b = true := by
  intro t
  induction t with
  | nil => intro a _ b hb; simp at hb
  | cons c t' ih =>
    intro a h b hb
    rw [strictAsc] at h
    simp at h
    rcases List.mem_cons.mp hb with h1 | h1
    · rw [h1]; exact h.1
    · exact blt_trans a c b h.1 (ih c h.2 b h1)

theorem strictAsc_pairwise_blt : ∀ l : List (List Byte),
    strictAsc l = true → l.Pairwise (fun a b => blt a b = true) := by
  intro l
  induction l with
  | nil => intro _; exact List.Pairwise.nil
  | cons a t ih =>
    intro h
    have ht : strictAsc t = true := by
      cases t with
      | nil => rfl
      | cons b t' => rw [strictAsc] at h; simp at h; exact h.2
    exact List.pairwise_cons.mpr ⟨strictAsc_head_blt t a h, ih ht⟩

theorem collectStrings_map_vstr (l : List (List Byte)) :
    collectStrings (l.map Value.vstr) = l := by
  induction l with
  | nil => rfl
  | cons a t ih => simp [collectStrings] at ih ⊢; exact ih

/-! ## Entry-decoding lemmas for envelope metadata values -/

theorem entry_vnull (pc : Bool) (lim : Limits) (depth : ℕ)
    (hdep : ¬ depth > lim.MaxDepth) :
    ∀ (f : ℕ) (r : List Byte), 2 * ([tagNull] : List Byte).length ≤ f →
      decodeAny pc lim f depth ([tagNull] ++ r) = .ok (.vnull, r) := by
  intro f r hf
  obtain ⟨f1, rfl⟩ : ∃ f1, f = f1 + 1 := ⟨f - 1, by simp at hf; omega⟩
  rw [List.cons_append, List.nil_append, decodeAny_null, if_neg hdep]

theorem entry_vstr (pc : Bool) (lim : Limits) (depth : ℕ) (s : List Byte)
    (h64 : s.length < 2 ^ 64) (hdep : ¬ depth > lim.MaxDepth) :
    ∀ (f : ℕ) (r : List Byte), 2 * (tagStr :: lenBytes s).length ≤ f →
      decodeAny pc lim f depth ((tagStr :: lenBytes s) ++ r) = .ok (.vstr s, r) := by
  intro f r hf
  obtain ⟨f1, rfl⟩ : ∃ f1, f = f1 + 1 := ⟨f - 1, by simp at hf; omega⟩
  rw [List.cons_append, decodeAny_str, if_neg hdep, lenBytes, List.append_assoc,
    readUvarint_enc h64]
  dsimp only
  rw [readN_append]

theorem entry_vts (pc : Bool) (lim : Limits) (depth : ℕ) (s : List Byte)
    (h64 : s.length < 2 ^ 64) (hdep : ¬ depth > lim.MaxDepth) :
    ∀ (f : ℕ) (r : List Byte), 2 * (tagTS :: lenBytes s).length ≤ f →
      decodeAny pc lim f depth ((tagTS :: lenBytes s) ++ r) = .ok (.vts s, r) := by
  intro f r hf
  obtain ⟨f1, rfl⟩ : ∃ f1, f = f1 + 1 := ⟨f - 1, by simp at hf; omega⟩
  rw [List.cons_append, decodeAny_ts, if_neg hdep, lenBytes, List.append_assoc,
    readUvarint_enc h64]
  dsimp only
  rw [readN_append]

theorem entry_varrstrs (pc : Bool) (lim : Limits) (depth : ℕ) (l : List (List Byte))
    (hcnt : l.length < 2 ^ 64) (h64 : ∀ s ∈ l, s.length < 2 ^ 64)
    (hdep : ¬ depth > lim.MaxDepth) (hdep1 : ¬ depth + 1 > lim.MaxDepth) :
    ∀ (f : ℕ) (r : List Byte),
      2 * (tagArr :: uvarintEnc l.length ++ (l.map (fun s => tagStr :: lenBytes s)).flatten).length ≤ f →
      decodeAny pc lim f depth
          ((tagArr :: uvarintEnc l.length ++ (l.map (fun s => tagStr :: lenBytes s)).flatten) ++ r) =
        .ok (.varr (l.map Value.vstr), r) := by
  intro f r hf
  simp only [List.length_cons, List.length_append] at hf
  obtain ⟨f1, rfl⟩ : ∃ f1, f = f1 + 1 := ⟨f - 1, by omega⟩
  rw [List.cons_append, List.cons_append, List.append_assoc, decodeAny_arr,
    if_neg hdep, readUvarint_enc hcnt]
  dsimp only
  have hgen := decodeManyGen pc lim (depth + 1)
    (l.map (fun s => (tagStr :: lenBytes s, Value.vstr s))) r f1
    (by
      intro p hp f2 r2 hf2
      obtain ⟨s, hs, rfl⟩ := List.mem_map.mp hp
      exact entry_vstr pc lim (depth + 1) s (h64 s hs) hdep1 f2 r2 hf2)
    (by
      intro p hp
      obtain ⟨s, hs, rfl⟩ := List.mem_map.mp hp
      simp)
    (by
      have : (l.map (fun s => (tagStr :: lenBytes s, Value.vstr s))).map (fun p => p.1) =
          l.map (fun s => tagStr :: lenBytes s) := by
        rw [List.map_map]; rfl
      rw [this]
      have huv := uvarintEnc_ne_nil l.length
      omega)
  have hm1 : (l.map (fun s => (tagStr :: lenBytes s, Value.vstr s))).map (fun p => p.1) =
      l.map (fun s => tagStr :: lenBytes s) := by rw [List.map_map]; rfl
  have hm2 : (l.map (fun s => (tagStr :: lenBytes s, Value.vstr s))).map (fun p => p.2) =
      l.map Value.vstr := by rw [List.map_map]; rfl
  have hm3 : (l.map (fun s => (tagStr :: lenBytes s, Value.vstr s))).length = l.length := by
    rw [List.length_map]
  rw [hm1, hm2, hm3] at hgen
  rw [hgen]

theorem readByte_cons (b : Byte) (r : List Byte) : readByte (b :: r) = .ok (b, r) := rfl

/-! ## The round-trip theorem

For every canonical value (`isCanon`), a successful encoding decodes back
to the same value, leaving the continuation untouched. -/

mutual

theorem decode_encode : ∀ (v : Value) (pc : Bool) (lim : Limits) (depth : ℕ)
    (enc rest : List Byte) (fuel : ℕ),
    isCanon pc v = true →
    encodeAny pc lim.MaxDepth depth v = some enc →
    2 * enc.length ≤ fuel →
    decodeAny pc lim fuel depth (enc ++ rest) = .ok (v, rest)
  | .vnull, pc, lim, depth, enc, rest, fuel => by
    intro _ he hf
    rw [encodeAny] at he
    split at he
    · simp at he
    · rename_i hdep
      simp at he
      subst he
      exact entry_vnull pc lim depth hdep fuel rest hf
  | .vbool b, pc, lim, depth, enc, rest, fuel => by
    intro _ he hf
    rw [encodeAny] at he
    split at he
    · simp at he
    · rename_i hdep
      cases b <;> simp at he <;> subst he
      · obtain ⟨f1, rfl⟩ : ∃ f1, fuel = f1 + 1 := ⟨fuel - 1, by simp at hf; omega⟩
        rw [List.cons_append, List.nil_append, decodeAny_false, if_neg hdep]
      · obtain ⟨f1, rfl⟩ : ∃ f1, fuel = f1 + 1 := ⟨fuel - 1, by simp at hf; omega⟩
        rw [List.cons_append, List.nil_append, decodeAny_true, if_neg hdep]
  | .vstr s, pc, lim, depth, enc, rest, fuel => by
    intro hc he hf
    simp only [isCanon, lenOK, decide_eq_true_eq] at hc
    rw [encodeAny] at he
    split at he
    · simp at he
    · rename_i hdep
      simp at he
      subst he
      exact entry_vstr pc lim depth s hc hdep fuel rest hf
  | .vts s, pc, lim, depth, enc, rest, fuel => by
    intro hc he hf
    simp only [isCanon, lenOK, decide_eq_true_eq] at hc
    rw [encodeAny] at he
    split at he
    · simp at he
    · rename_i hdep
      simp at he
      subst he
      exact entry_vts pc lim depth s hc hdep fuel rest hf
  | .vdate s, pc, lim, depth, enc, rest, fuel => by
    intro hc he hf
    simp only [isCanon, lenOK, decide_eq_true_eq] at hc
    rw [encodeAny] at he
    split at he
    · simp at he
    · rename_i hdep
      simp at he
      subst he
      obtain ⟨f1, rfl⟩ : ∃ f1, fuel = f1 + 1 := ⟨fuel - 1, by simp at hf; omega⟩
      rw [List.cons_append, decodeAny_date, if_neg hdep, lenBytes, List.append_assoc,
        readUvarint_enc hc]
      dsimp only
      rw [readN_append]
  | .vtime s, pc, lim, depth, enc, rest, fuel => by
    intro hc he hf
    simp only [isCanon, lenOK, decide_eq_true_eq] at hc
    rw [encodeAny] at he
    split at he
    · simp at he
    · rename_i hdep
      simp at he
      subst he
      obtain ⟨f1, rfl⟩ : ∃ f1, fuel = f1 + 1 := ⟨fuel - 1, by simp at hf; omega⟩
      rw [List.cons_append, decodeAny_time, if_neg hdep, lenBytes, List.append_assoc,
        readUvarint_enc hc]
      dsimp only
      rw [readN_append]
  | .vlink s, pc, lim, depth, enc, rest, fuel => by
    intro hc he hf
    simp only [isCanon, lenOK, decide_eq_true_eq] at hc
    rw [encodeAny] at he
    split at he
    · simp at he
    · rename_i hdep
      simp at he
      subst he
      obtain ⟨f1, rfl⟩ : ∃ f1, fuel = f1 + 1 := ⟨fuel - 1, by simp at hf; omega⟩
      rw [List.cons_append, decodeAny_link, if_neg hdep, lenBytes, List.append_assoc,
        readUvarint_enc hc]
      dsimp only
      rw [readN_append]
  | .vannot s, pc, lim, depth, enc, rest, fuel => by
    intro hc he hf
    simp only [isCanon, lenOK, decide_eq_true_eq] at hc
    rw [encodeAny] at he
    split at he
    · simp at he
    · rename_i hdep
      simp at he
      subst he
      obtain ⟨f1, rfl⟩ : ∃ f1, fuel = f1 + 1 := ⟨fuel - 1, by simp at hf; omega⟩
      rw [List.cons_append, decodeAny_annot, if_neg hdep, lenBytes, List.append_assoc,
        readUvarint_enc hc]
      dsimp only
      rw [readN_append]
  | .vbin bs, pc, lim, depth, enc, rest, fuel => by
    intro hc he hf
    simp only [isCanon, lenOK, decide_eq_true_eq] at hc
    rw [encodeAny] at he
    split at he
    · simp at he
    · rename_i hdep
      simp at he
      subst he
      obtain ⟨f1, rfl⟩ : ∃ f1, fuel = f1 + 1 := ⟨fuel - 1, by simp at hf; omega⟩
      rw [List.cons_append, decodeAny_bin, if_neg hdep, lenBytes, List.append_assoc,
        readUvarint_enc hc]
      dsimp only
      rw [readN_append]
  | .vuuid bs, pc, lim, depth, enc, rest, fuel => by
    intro hc he hf
    simp only [isCanon, decide_eq_true_eq] at hc
    rw [encodeAny] at he
    split at he
    · simp at he
    · rename_i hdep
      simp at he
      subst he
      obtain ⟨f1, rfl⟩ : ∃ f1, fuel = f1 + 1 := ⟨fuel - 1, by simp at hf; omega⟩
      rw [List.cons_append, decodeAny_uuid, if_neg hdep, ← hc, readN_append]
  | .vint z, pc, lim, depth, enc, rest, fuel => by
    intro hc he hf
    simp only [isCanon, decide_eq_true_eq] at hc
    rw [encodeAny] at he
    split at he
    · simp at he
    · rename_i hdep
      simp at he
      subst he
      obtain ⟨f1, rfl⟩ : ∃ f1, fuel = f1 + 1 := ⟨fuel - 1, by simp at hf; omega⟩
      rw [List.cons_append, List.append_assoc, decodeAny_int,
        if_neg hdep, readUvarint_enc hc]
      dsimp only
      rw [if_neg (by omega)]
      rw [List.cons_append, readByte_cons]
      dsimp only
      rw [Nat.add_sub_cancel, readN_append]
      dsimp only
      have hval : (if (if z < 0 then (0x01 : Byte) else 0x00) = (0x01 : Byte) then
          -((bytesToNat (natBytesBE z.natAbs) : ℤ)) else (bytesToNat (natBytesBE z.natAbs) : ℤ)) = z := by
        rw [bytesToNat_natBytesBE]
        by_cases hz : z < 0
        · rw [if_pos hz, if_pos rfl]
          omega
        · rw [if_neg hz, if_neg (by decide)]
          omega
      rw [hval]
  | .vdec neg ex c, pc, lim, depth, enc, rest, fuel => by
    intro hc he hf
    simp only [isCanon, lenOK, Bool.and_eq_true, decide_eq_true_eq] at hc
    rw [encodeAny] at he
    split at he
    · simp at he
    · rename_i hdep
      simp at he
      subst he
      obtain ⟨f1, rfl⟩ : ∃ f1, fuel = f1 + 1 := ⟨fuel - 1, by simp at hf; omega⟩
      rw [List.cons_append, List.cons_append, List.append_assoc,
        decodeAny_dec, if_neg hdep]
      rw [readByte_cons]
      dsimp only
      have hzz : zigzagEnc ex < 2 ^ 64 := zigzagEnc_lt (by omega) (by omega)
      rw [readUvarint_enc hzz]
      dsimp only
      rw [lenBytes, List.append_assoc, readUvarint_enc hc.2]
      dsimp only
      rw [readN_append]
      dsimp only
      have hexp : toInt32 (zigzagDec (zigzagEnc ex)) = ex := by
        rw [zigzagDec_enc (by omega) (by omega)]
        exact toInt32_eq_self hc.1.1 hc.1.2
      rw [hexp, bytesToNat_natBytesBE]
      cases neg <;> simp
  | .varr items, pc, lim, depth, enc, rest, fuel => by
    intro hc he hf
    simp only [isCanon, Bool.and_eq_true, decide_eq_true_eq] at hc
    rw [encodeAny] at he
    split at he
    · simp at he
    · rename_i hdep
      cases hE : encodeItems pc lim.MaxDepth (depth + 1) items with
      | none => rw [hE] at he; simp at he
      | some encs =>
        rw [hE] at he
        simp at he
        subst he
        have hEnc : encs = items.map (encP pc) := by
          rw [encodeItems_eq_encP items pc lim.MaxDepth (depth + 1) encs hE,
            encPItems_eq_map]
        subst hEnc
        obtain ⟨f1, rfl⟩ : ∃ f1, fuel = f1 + 1 := ⟨fuel - 1, by simp at hf; omega⟩
        rw [List.cons_append, List.append_assoc, decodeAny_arr, if_neg hdep,
          readUvarint_enc hc.1]
        dsimp only
        have huv := uvarintEnc_ne_nil items.length
        simp only [List.length_cons, List.length_append] at hf
        have hgen := decodeManyGen pc lim (depth + 1)
          (items.map (fun v => (encP pc v, v))) rest f1
          (by
            intro p hp f r hfr
            simp only [List.mem_map] at hp
            obtain ⟨v, hv, rfl⟩ := hp
            have hcv := isCanonItems_mem pc items hc.2 v hv
            obtain ⟨e, hev⟩ := encodeItems_mem_inv pc lim.MaxDepth (depth + 1) items _ hE v hv
            have hee : e = encP pc v := encodeAny_eq_encP v pc lim.MaxDepth (depth + 1) e hev
            subst hee
            exact decode_encode_items items pc lim (depth + 1) v hv (encP pc v) r f hcv hev hfr)
          (by
            intro p hp
            simp only [List.mem_map] at hp
            obtain ⟨v, hv, rfl⟩ := hp
            exact encP_ne_nil pc v)
          (by
            simp only [List.map_map, Function.comp_def]
            rw [show (items.map fun v => encP pc v) = items.map (encP pc) from rfl]
            omega)
        simp only [List.map_map, List.length_map, Function.comp_def, List.map_id'] at hgen
        rw [show (items.map fun v => encP pc v) = items.map (encP pc) from rfl] at hgen
        rw [hgen]
  | .vobj fields, pc, lim, depth, enc, rest, fuel => by
    intro hc he hf
    simp only [isCanon, Bool.and_eq_true, decide_eq_true_eq] at hc
    obtain ⟨⟨⟨⟨hlen, hasc⟩, hcm⟩, hklen⟩, hcf⟩ := hc
    have hcm' : pc = true ∨ ∀ kv ∈ fields, ¬ kv.1 = commentKey := by
      cases hpc : pc with
      | true => exact Or.inl rfl
      | false =>
        refine Or.inr ?_
        intro kv hkv
        rw [hpc] at hcm
        simp only [Bool.false_or] at hcm
        have := List.all_eq_true.mp hcm kv hkv
        simpa using this
    have hklen' : ∀ kv ∈ fields, kv.1.length < 2 ^ 64 := by
      intro kv hkv
      have := List.all_eq_true.mp hklen kv hkv
      simpa [lenOK] using this
    rw [encodeAny] at he
    split at he
    · simp at he
    · rename_i hdep
      cases hE : encodeFields pc lim.MaxDepth (depth + 1) fields with
      | none => rw [hE] at he; simp at he
      | some fs =>
        rw [hE] at he
        simp at he
        subst he
        have hEnc : fs = fields.map (fun kv => (kv.1, encP pc kv.2)) := by
          rw [encodeFields_eq_encP fields pc lim.MaxDepth (depth + 1) fs hE,
            encPFields_no_comment pc fields hcm']
        subst hEnc
        have hsort : (fields.map (fun kv => (kv.1, encP pc kv.2))).insertionSort leKey
            = fields.map (fun kv => (kv.1, encP pc kv.2)) := by
          apply insertionSort_leKey_id
          simp only [List.map_map, Function.comp_def]
          exact strictAsc_weakAsc _ hasc
        rw [hsort]
        obtain ⟨f1, rfl⟩ : ∃ f1, fuel = f1 + 1 := ⟨fuel - 1, by simp at hf; omega⟩
        rw [List.cons_append, List.append_assoc, decodeAny_obj, if_neg hdep,
          List.length_map, readUvarint_enc hlen]
        dsimp only
        have huv := uvarintEnc_ne_nil fields.length
        rw [hsort] at hf
        simp only [List.length_cons, List.length_append, List.length_map,
          List.map_map, Function.comp_def] at hf ⊢
        have hpw : (fields.map (fun kv => kv.1)).Pairwise (fun a b => blt a b = true) :=
          strictAsc_pairwise_blt _ hasc
        rw [List.pairwise_map] at hpw
        have hgen := decodeObjGen pc lim (depth + 1)
          (fields.map (fun kv => (kv.1, encP pc kv.2, kv.2))) [] rest f1
          (by
            intro p hp f r hfr
            simp only [List.mem_map] at hp
            obtain ⟨q, hq, rfl⟩ := hp
            have hcq := isCanonFields_mem pc fields hcf q hq
            have hnc : ¬ (q.1 = commentKey ∧ ¬ pc = true) := by
              rcases hcm' with h | h
              · simp [h]
              · simp [h q hq]
            obtain ⟨e, hev⟩ :=
              encodeFields_mem_inv pc lim.MaxDepth (depth + 1) fields _ hE q hq hnc
            have hee : e = encP pc q.2 :=
              encodeAny_eq_encP q.2 pc lim.MaxDepth (depth + 1) e hev
            subst hee
            exact decode_encode_fields fields pc lim (depth + 1) q hq (encP pc q.2) r f
              hcq hev hfr)
          (by
            intro p hp
            simp only [List.mem_map] at hp
            obtain ⟨q, hq, rfl⟩ := hp
            exact encP_ne_nil pc q.2)
          (by
            intro p hp
            simp only [List.mem_map] at hp
            obtain ⟨q, hq, rfl⟩ := hp
            exact hklen' q hq)
          (by
            intro p hp hck
            simp only [List.mem_map] at hp
            obtain ⟨q, hq, rfl⟩ := hp
            rcases hcm' with h | h
            · exact h
            · exact absurd hck (h q hq))
          (by intro p _ kv hkv; simp at hkv)
          (by
            rw [List.pairwise_map]
            refine hpw.imp ?_
            intro a b hab
            dsimp only
            intro hEq
            rw [hEq] at hab
            have h2 := blt_asymm _ _ hab
            rw [hab] at h2
            simp at h2)
          (by
            simp only [List.map_map, Function.comp_def]
            omega)
        simp only [List.map_map, List.length_map, Function.comp_def, List.nil_append] at hgen
        rw [hgen]
        simp
  | .vset items, pc, lim, depth, enc, rest, fuel => by
    intro hc he hf
    simp only [isCanon, Bool.and_eq_true, decide_eq_true_eq] at hc
    rw [encodeAny] at he
    split at he
    · simp at he
    · rename_i hdep
      cases hE : encodeItems pc lim.MaxDepth (depth + 1) items with
      | none => rw [hE] at he; simp at he
      | some encs =>
        rw [hE] at he
        simp at he
        subst he
        have hEnc : encs = items.map (encP pc) := by
          rw [encodeItems_eq_encP items pc lim.MaxDepth (depth + 1) encs hE,
            encPItems_eq_map]
        subst hEnc
        rw [insertionSort_leBytes_id (items.map (encP pc)) hc.1.2]
        obtain ⟨f1, rfl⟩ : ∃ f1, fuel = f1 + 1 := ⟨fuel - 1, by simp at hf; omega⟩
        rw [List.cons_append, List.append_assoc, decodeAny_set, if_neg hdep,
          List.length_map, readUvarint_enc hc.1.1]
        dsimp only
        have huv := uvarintEnc_ne_nil items.length
        rw [insertionSort_leBytes_id (items.map (encP pc)) hc.1.2] at hf
        simp only [List.length_cons, List.length_append, List.length_map] at hf
        have hgen := decodeManyGen pc lim (depth + 1)
          (items.map (fun v => (encP pc v, v))) rest f1
          (by
            intro p hp f r hfr
            simp only [List.mem_map] at hp
            obtain ⟨v, hv, rfl⟩ := hp
            have hcv := isCanonItems_mem pc items hc.2 v hv
            obtain ⟨e, hev⟩ := encodeItems_mem_inv pc lim.MaxDepth (depth + 1) items _ hE v hv
            have hee : e = encP pc v := encodeAny_eq_encP v pc lim.MaxDepth (depth + 1) e hev
            subst hee
            exact decode_encode_items items pc lim (depth + 1) v hv (encP pc v) r f hcv hev hfr)
          (by
            intro p hp
            simp only [List.mem_map] at hp
            obtain ⟨v, hv, rfl⟩ := hp
            exact encP_ne_nil pc v)
          (by
            simp only [List.map_map, Function.comp_def]
            rw [show (items.map fun v => encP pc v) = items.map (encP pc) from rfl]
            omega)
        simp only [List.map_map, List.length_map, Function.comp_def, List.map_id'] at hgen
        rw [show (items.map fun v => encP pc v) = items.map (encP pc) from rfl] at hgen
        rw [hgen]
  | .vmap pairs, pc, lim, depth, enc, rest, fuel => by
    intro hc he hf
    simp only [isCanon, Bool.and_eq_true, decide_eq_true_eq] at hc
    rw [encodeAny] at he
    split at he
    · simp at he
    · rename_i hdep
      cases hE : encodePairs pc lim.MaxDepth (depth + 1) pairs with
      | none => rw [hE] at he; simp at he
      | some kvs =>
        rw [hE] at he
        simp at he
        subst he
        have hEnc : kvs = pairs.map (fun p => (encP pc p.1, encP pc p.2)) := by
          rw [encodePairs_eq_encP pairs pc lim.MaxDepth (depth + 1) kvs hE,
            encPPairs_eq_map]
        subst hEnc
        have hsort : (pairs.map (fun p => (encP pc p.1, encP pc p.2))).insertionSort leKey
            = pairs.map (fun p => (encP pc p.1, encP pc p.2)) := by
          apply insertionSort_leKey_id
          simp only [List.map_map, Function.comp_def]
          exact hc.1.2
        rw [hsort]
        obtain ⟨f1, rfl⟩ : ∃ f1, fuel = f1 + 1 := ⟨fuel - 1, by simp at hf; omega⟩
        rw [List.cons_append, List.append_assoc, decodeAny_map, if_neg hdep,
          List.length_map, readUvarint_enc hc.1.1]
        dsimp only
        have huv := uvarintEnc_ne_nil pairs.length
        rw [hsort] at hf
        simp only [List.length_cons, List.length_append, List.length_map,
          List.map_map, Function.comp_def] at hf ⊢
        have hgen := decodeMapGen pc lim (depth + 1)
          (pairs.map (fun p => ((encP pc p.1, p.1), (encP pc p.2, p.2)))) [] rest f1
          (by
            intro p hp f r hfr
            simp only [List.mem_map] at hp
            obtain ⟨q, hq, rfl⟩ := hp
            have hcq := isCanonPairs_mem pc pairs hc.2 q hq
            obtain ⟨e, hek⟩ :=
              (encodePairs_mem_inv pc lim.MaxDepth (depth + 1) pairs _ hE q hq).1
            have hee : e = encP pc q.1 :=
              encodeAny_eq_encP q.1 pc lim.MaxDepth (depth + 1) e hek
            subst hee
            exact (decode_encode_pairs pairs pc lim (depth + 1) q hq (encP pc q.1) r f).1
              hcq.1 hek hfr)
          (by
            intro p hp f r hfr
            simp only [List.mem_map] at hp
            obtain ⟨q, hq, rfl⟩ := hp
            have hcq := isCanonPairs_mem pc pairs hc.2 q hq
            obtain ⟨e, hev⟩ :=
              (encodePairs_mem_inv pc lim.MaxDepth (depth + 1) pairs _ hE q hq).2
            have hee : e = encP pc q.2 :=
              encodeAny_eq_encP q.2 pc lim.MaxDepth (depth + 1) e hev
            subst hee
            exact (decode_encode_pairs pairs pc lim (depth + 1) q hq (encP pc q.2) r f).2
              hcq.2 hev hfr)
          (by
            intro p hp
            simp only [List.mem_map] at hp
            obtain ⟨q, hq, rfl⟩ := hp
            exact ⟨encP_ne_nil pc q.1, encP_ne_nil pc q.2⟩)
          (by
            simp only [List.map_map, Function.comp_def]
            omega)
        simp only [List.map_map, List.length_map, Function.comp_def, List.nil_append] at hgen
        rw [hgen]
        simp
  | .venv t sch ver fs cr sg body, pc, lim, depth, enc, rest, fuel => by
    intro hc he hf
    cases sg with
    | some sv =>
      exfalso
      simp [isCanon] at hc
    | none =>
    cases fs with
    | some l =>
      cases cr with
      | some ts =>
        simp only [isCanon, Bool.and_eq_true, decide_eq_true_eq, lenOK] at hc
        simp only [encodeAny] at he
        split at he
        · simp at he
        · rename_i hdep
          split at he
          · simp at he
          · rename_i hdep1
            split at he
            · simp at he
            · rename_i hdep2
              cases hF : featBytes lim.MaxDepth depth (some l) with
              | none => rw [hF] at he; simp at he
              | some fb =>
                rw [hF] at he
                have hdep3 : ¬ depth + 3 > lim.MaxDepth := by
                  rw [featBytes] at hF
                  split at hF
                  · simp at hF
                  · rename_i h3; exact h3
                have hfb : fb = tagArr :: uvarintEnc l.length ++
                    (l.map (fun s => tagStr :: lenBytes s)).flatten := by
                  have := featBytes_eq hF
                  simpa [featBytesP] using this
                subst hfb
                rw [show encodeSigEntry pc lim.MaxDepth (depth + 2) none = some [] from rfl] at he
                cases hB : encodeAny pc lim.MaxDepth (depth + 1) body with
                | none => rw [hB] at he; simp at he
                | some bb =>
                  rw [hB] at he
                  simp at he
                  subst he
                  obtain ⟨⟨⟨⟨⟨⟨hT, hSch⟩, hVer⟩, ⟨hFsLen, hFsAll⟩⟩, hTs⟩, -⟩, hBody⟩ := hc
                  have h64 : ∀ s ∈ l, s.length < 2 ^ 64 := by
                    intro s hs
                    have := List.all_eq_true.mp hFsAll s hs
                    simp at this
                    exact this.1
                  simp only [List.length_cons, List.length_append] at hf
                  obtain ⟨f1, rfl⟩ : ∃ f1, fuel = f1 + 1 := ⟨fuel - 1, by omega⟩
                  simp only [List.cons_append, List.append_assoc]
                  rw [decodeAny_env, if_neg hdep]
                  obtain ⟨f2, rfl⟩ : ∃ f2, f1 = f2 + 1 := ⟨f1 - 1, by omega⟩
                  rw [decodeAny_obj, if_neg hdep1,
                    readUvarint_enc (by decide : (5 : ℕ) < 2 ^ 64)]
                  dsimp only
                  have hbody : decodeAny pc lim (f2 + 1) (depth + 1) (bb ++ rest) =
                      .ok (body, rest) :=
                    decode_encode body pc lim (depth + 1) bb rest (f2 + 1) hBody hB (by omega)
                  have hgen := decodeObjGen pc lim (depth + 1 + 1)
                    [(keyCreatedAt, tagTS :: lenBytes ts, Value.vts ts),
                     (keyFeatures, tagArr :: uvarintEnc l.length ++
                       (l.map (fun s => tagStr :: lenBytes s)).flatten,
                       Value.varr (l.map Value.vstr)),
                     (keySchema, tagStr :: lenBytes sch, Value.vstr sch),
                     (keyType, tagStr :: lenBytes t, Value.vstr t),
                     (keyVersion, tagStr :: lenBytes ver, Value.vstr ver)]
                    [] (bb ++ rest) f2
                    (by
                      intro p hp f r hfr
                      simp only [List.mem_cons, List.not_mem_nil, or_false] at hp
                      rcases hp with rfl | rfl | rfl | rfl | rfl
                      · exact entry_vts pc lim (depth + 2) ts hTs hdep2 f r hfr
                      · exact entry_varrstrs pc lim (depth + 2) l hFsLen h64 hdep2 hdep3 f r hfr
                      · exact entry_vstr pc lim (depth + 2) sch hSch hdep2 f r hfr
                      · exact entry_vstr pc lim (depth + 2) t hT hdep2 f r hfr
                      · exact entry_vstr pc lim (depth + 2) ver hVer hdep2 f r hfr)
                    (by
                      intro p hp
                      simp only [List.mem_cons, List.not_mem_nil, or_false] at hp
                      rcases hp with rfl | rfl | rfl | rfl | rfl <;> simp)
                    (by
                      intro p hp
                      simp only [List.mem_cons, List.not_mem_nil, or_false] at hp
                      rcases hp with rfl | rfl | rfl | rfl | rfl <;> dsimp only <;> decide)
                    (by
                      intro p hp hck
                      simp only [List.mem_cons, List.not_mem_nil, or_false] at hp
                      rcases hp with rfl | rfl | rfl | rfl | rfl <;>
                        (dsimp only at hck; exact absurd hck (by decide)))
                    (by intro p _ kv hkv; simp at hkv)
                    (by simp [List.pairwise_cons] <;> decide)
                    (by
                      simp only [List.map_cons, List.map_nil, List.flatten_cons,
                        List.flatten_nil, List.append_nil, List.length_append,
                        List.length_cons, List.append_assoc]
                      omega)
                  simp only [List.map_cons, List.map_nil, List.flatten_cons,
                    List.flatten_nil, List.append_nil, List.length_cons, List.length_nil,
                    List.append_assoc, List.cons_append, List.nil_append] at hgen
                  rw [show (0 + 1 + 1 + 1 + 1 + 1 : ℕ) = 5 from rfl] at hgen
                  rw [hgen]
                  dsimp only
                  rw [show lookupKey
                      [(keyCreatedAt, Value.vts ts),
                       (keyFeatures, Value.varr (l.map Value.vstr)),
                       (keySchema, Value.vstr sch),
                       (keyType, Value.vstr t),
                       (keyVersion, Value.vstr ver)] keyType = some (Value.vstr t) from rfl]
                  rw [show lookupKey
                      [(keyCreatedAt, Value.vts ts),
                       (keyFeatures, Value.varr (l.map Value.vstr)),
                       (keySchema, Value.vstr sch),
                       (keyType, Value.vstr t),
                       (keyVersion, Value.vstr ver)] keySchema = some (Value.vstr sch) from rfl]
                  rw [show lookupKey
                      [(keyCreatedAt, Value.vts ts),
                       (keyFeatures, Value.varr (l.map Value.vstr)),
                       (keySchema, Value.vstr sch),
                       (keyType, Value.vstr t),
                       (keyVersion, Value.vstr ver)] keyVersion = some (Value.vstr ver) from rfl]
                  rw [show lookupKey
                      [(keyCreatedAt, Value.vts ts),
                       (keyFeatures, Value.varr (l.map Value.vstr)),
                       (keySchema, Value.vstr sch),
                       (keyType, Value.vstr t),
                       (keyVersion, Value.vstr ver)] keyFeatures =
                        some (Value.varr (l.map Value.vstr)) from rfl]
                  rw [show lookupKey
                      [(keyCreatedAt, Value.vts ts),
                       (keyFeatures, Value.varr (l.map Value.vstr)),
                       (keySchema, Value.vstr sch),
                       (keyType, Value.vstr t),
                       (keyVersion, Value.vstr ver)] keyCreatedAt = some (Value.vts ts) from rfl]
                  dsimp only
                  rw [collectStrings_map_vstr, hbody]
      | none =>
        simp only [isCanon, Bool.and_eq_true, decide_eq_true_eq, lenOK] at hc
        simp only [encodeAny] at he
        split at he
        · simp at he
        · rename_i hdep
          split at he
          · simp at he
          · rename_i hdep1
            split at he
            · simp at he
            · rename_i hdep2
              cases hF : featBytes lim.MaxDepth depth (some l) with
              | none => rw [hF] at he; simp at he
              | some fb =>
                rw [hF] at he
                have hdep3 : ¬ depth + 3 > lim.MaxDepth := by
                  rw [featBytes] at hF
                  split at hF
                  · simp at hF
                  · rename_i h3; exact h3
                have hfb : fb = tagArr :: uvarintEnc l.length ++
                    (l.map (fun s => tagStr :: lenBytes s)).flatten := by
                  have := featBytes_eq hF
                  simpa [featBytesP] using this
                subst hfb
                rw [show encodeSigEntry pc lim.MaxDepth (depth + 2) none = some [] from rfl] at he
                cases hB : encodeAny pc lim.MaxDepth (depth + 1) body with
                | none => rw [hB] at he; simp at he
                | some bb =>
                  rw [hB] at he
                  simp at he
                  subst he
                  obtain ⟨⟨⟨⟨⟨⟨hT, hSch⟩, hVer⟩, ⟨hFsLen, hFsAll⟩⟩, -⟩, -⟩, hBody⟩ := hc
                  have h64 : ∀ s ∈ l, s.length < 2 ^ 64 := by
                    intro s hs
                    have := List.all_eq_true.mp hFsAll s hs
                    simp at this
                    exact this.1
                  simp only [List.length_cons, List.length_append] at hf
                  obtain ⟨f1, rfl⟩ : ∃ f1, fuel = f1 + 1 := ⟨fuel - 1, by omega⟩
                  simp only [List.cons_append, List.append_assoc]
                  rw [decodeAny_env, if_neg hdep]
                  obtain ⟨f2, rfl⟩ : ∃ f2, f1 = f2 + 1 := ⟨f1 - 1, by omega⟩
                  rw [decodeAny_obj, if_neg hdep1,
                    readUvarint_enc (by decide : (4 : ℕ) < 2 ^ 64)]
                  dsimp only
                  have hbody : decodeAny pc lim (f2 + 1) (depth + 1) (bb ++ rest) =
                      .ok (body, rest) :=
                    decode_encode body pc lim (depth + 1) bb rest (f2 + 1) hBody hB (by omega)
                  have hgen := decodeObjGen pc lim (depth + 1 + 1)
                    [(keyFeatures, tagArr :: uvarintEnc l.length ++
                       (l.map (fun s => tagStr :: lenBytes s)).flatten,
                       Value.varr (l.map Value.vstr)),
                     (keySchema, tagStr :: lenBytes sch, Value.vstr sch),
                     (keyType, tagStr :: lenBytes t, Value.vstr t),
                     (keyVersion, tagStr :: lenBytes ver, Value.vstr ver)]
                    [] (bb ++ rest) f2
                    (by
                      intro p hp f r hfr
                      simp only [List.mem_cons, List.not_mem_nil, or_false] at hp
                      rcases hp with rfl | rfl | rfl | rfl
                      · exact entry_varrstrs pc lim (depth + 1 + 1) l hFsLen h64 hdep2 hdep3 f r hfr
                      · exact entry_vstr pc lim (depth + 1 + 1) sch hSch hdep2 f r hfr
                      · exact entry_vstr pc lim (depth + 1 + 1) t hT hdep2 f r hfr
                      · exact entry_vstr pc lim (depth + 1 + 1) ver hVer hdep2 f r hfr)
                    (by
                      intro p hp
                      simp only [List.mem_cons, List.not_mem_nil, or_false] at hp
                      rcases hp with rfl | rfl | rfl | rfl <;> simp)
                    (by
                      intro p hp
                      simp only [List.mem_cons, List.not_mem_nil, or_false] at hp
                      rcases hp with rfl | rfl | rfl | rfl <;> dsimp only <;> decide)
                    (by
                      intro p hp hck
                      simp only [List.mem_cons, List.not_mem_nil, or_false] at hp
                      rcases hp with rfl | rfl | rfl | rfl <;>
                        (dsimp only at hck; exact absurd hck (by decide)))
                    (by intro p _ kv hkv; simp at hkv)
                    (by simp [List.pairwise_cons] <;> decide)
                    (by
                      simp only [List.map_cons, List.map_nil, List.flatten_cons,
                        List.flatten_nil, List.append_nil, List.length_append,
                        List.length_cons, List.append_assoc]
                      omega)
                  simp only [List.map_cons, List.map_nil, List.flatten_cons,
                    List.flatten_nil, List.append_nil, List.length_cons, List.length_nil,
                    List.append_assoc, List.cons_append, List.nil_append] at hgen
                  rw [show (0 + 1 + 1 + 1 + 1 : ℕ) = 4 from rfl] at hgen
                  rw [hgen]
                  dsimp only
                  rw [show lookupKey
                      [(keyFeatures, Value.varr (l.map Value.vstr)),
                       (keySchema, Value.vstr sch),
                       (keyType, Value.vstr t),
                       (keyVersion, Value.vstr ver)] keyType = some (Value.vstr t) from rfl]
                  rw [show lookupKey
                      [(keyFeatures, Value.varr (l.map Value.vstr)),
                       (keySchema, Value.vstr sch),
                       (keyType, Value.vstr t),
                       (keyVersion, Value.vstr ver)] keySchema = some (Value.vstr sch) from rfl]
                  rw [show lookupKey
                      [(keyFeatures, Value.varr (l.map Value.vstr)),
                       (keySchema, Value.vstr sch),
                       (keyType, Value.vstr t),
                       (keyVersion, Value.vstr ver)] keyVersion = some (Value.vstr ver) from rfl]
                  rw [show lookupKey
                      [(keyFeatures, Value.varr (l.map Value.vstr)),
                       (keySchema, Value.vstr sch),
                       (keyType, Value.vstr t),
                       (keyVersion, Value.vstr ver)] keyFeatures =
                        some (Value.varr (l.map Value.vstr)) from rfl]
                  rw [show lookupKey
                      [(keyFeatures, Value.varr (l.map Value.vstr)),
                       (keySchema, Value.vstr sch),
                       (keyType, Value.vstr t),
                       (keyVersion, Value.vstr ver)] keyCreatedAt = none from rfl]
                  dsimp only
                  rw [collectStrings_map_vstr, hbody]
    | none =>
      cases cr with
      | some ts =>
        simp only [isCanon, Bool.and_eq_true, decide_eq_true_eq, lenOK] at hc
        simp only [encodeAny] at he
        split at he
        · simp at he
        · rename_i hdep
          split at he
          · simp at he
          · rename_i hdep1
            split at he
            · simp at he
            · rename_i hdep2
              cases hF : featBytes lim.MaxDepth depth none with
              | none => rw [hF] at he; simp at he
              | some fb =>
                rw [hF] at he
                have hfb : fb = [tagNull] := by
                  have := featBytes_eq hF
                  simpa [featBytesP] using this
                subst hfb
                rw [show encodeSigEntry pc lim.MaxDepth (depth + 2) none = some [] from rfl] at he
                cases hB : encodeAny pc lim.MaxDepth (depth + 1) body with
                | none => rw [hB] at he; simp at he
                | some bb =>
                  rw [hB] at he
                  simp at he
                  subst he
                  obtain ⟨⟨⟨⟨⟨⟨hT, hSch⟩, hVer⟩, -⟩, hTs⟩, -⟩, hBody⟩ := hc
                  simp only [List.length_cons, List.length_append] at hf
                  obtain ⟨f1, rfl⟩ : ∃ f1, fuel = f1 + 1 := ⟨fuel - 1, by omega⟩
                  simp only [List.cons_append, List.append_assoc, List.nil_append]
                  rw [decodeAny_env, if_neg hdep]
                  obtain ⟨f2, rfl⟩ : ∃ f2, f1 = f2 + 1 := ⟨f1 - 1, by omega⟩
                  rw [decodeAny_obj, if_neg hdep1,
                    readUvarint_enc (by decide : (5 : ℕ) < 2 ^ 64)]
                  dsimp only
                  have hbody : decodeAny pc lim (f2 + 1) (depth + 1) (bb ++ rest) =
                      .ok (body, rest) :=
                    decode_encode body pc lim (depth + 1) bb rest (f2 + 1) hBody hB (by omega)
                  have hgen := decodeObjGen pc lim (depth + 1 + 1)
                    [(keyCreatedAt, tagTS :: lenBytes ts, Value.vts ts),
                     (keyFeatures, [tagNull], Value.vnull),
                     (keySchema, tagStr :: lenBytes sch, Value.vstr sch),
                     (keyType, tagStr :: lenBytes t, Value.vstr t),
                     (keyVersion, tagStr :: lenBytes ver, Value.vstr ver)]
                    [] (bb ++ rest) f2
                    (by
                      intro p hp f r hfr
                      simp only [List.mem_cons, List.not_mem_nil, or_false] at hp
                      rcases hp with rfl | rfl | rfl | rfl | rfl
                      · exact entry_vts pc lim (depth + 1 + 1) ts hTs hdep2 f r hfr
                      · exact entry_vnull pc lim (depth + 1 + 1) hdep2 f r hfr
                      · exact entry_vstr pc lim (depth + 1 + 1) sch hSch hdep2 f r hfr
                      · exact entry_vstr pc lim (depth + 1 + 1) t hT hdep2 f r hfr
                      · exact entry_vstr pc lim (depth + 1 + 1) ver hVer hdep2 f r hfr)
                    (by
                      intro p hp
                      simp only [List.mem_cons, List.not_mem_nil, or_false] at hp
                      rcases hp with rfl | rfl | rfl | rfl | rfl <;> simp)
                    (by
                      intro p hp
                      simp only [List.mem_cons, List.not_mem_nil, or_false] at hp
                      rcases hp with rfl | rfl | rfl | rfl | rfl <;> dsimp only <;> decide)
                    (by
                      intro p hp hck
                      simp only [List.mem_cons, List.not_mem_nil, or_false] at hp
                      rcases hp with rfl | rfl | rfl | rfl | rfl <;>
                        (dsimp only at hck; exact absurd hck (by decide)))
                    (by intro p _ kv hkv; simp at hkv)
                    (by simp [List.pairwise_cons] <;> decide)
                    (by
                      simp only [List.map_cons, List.map_nil, List.flatten_cons,
                        List.flatten_nil, List.append_nil, List.length_append,
                        List.length_cons, List.length_nil, List.append_assoc]
                      omega)
                  simp only [List.map_cons, List.map_nil, List.flatten_cons,
                    List.flatten_nil, List.append_nil, List.length_cons, List.length_nil,
                    List.append_assoc, List.cons_append, List.nil_append] at hgen
                  rw [show (0 + 1 + 1 + 1 + 1 + 1 : ℕ) = 5 from rfl] at hgen
                  rw [hgen]
                  dsimp only
                  rw [show lookupKey
                      [(keyCreatedAt, Value.vts ts),
                       (keyFeatures, Value.vnull),
                       (keySchema, Value.vstr sch),
                       (keyType, Value.vstr t),
                       (keyVersion, Value.vstr ver)] keyType = some (Value.vstr t) from rfl]
                  rw [show lookupKey
                      [(keyCreatedAt, Value.vts ts),
                       (keyFeatures, Value.vnull),
                       (keySchema, Value.vstr sch),
                       (keyType, Value.vstr t),
                       (keyVersion, Value.vstr ver)] keySchema = some (Value.vstr sch) from rfl]
                  rw [show lookupKey
                      [(keyCreatedAt, Value.vts ts),
                       (keyFeatures, Value.vnull),
                       (keySchema, Value.vstr sch),
                       (keyType, Value.vstr t),
                       (keyVersion, Value.vstr ver)] keyVersion = some (Value.vstr ver) from rfl]
                  rw [show lookupKey
                      [(keyCreatedAt, Value.vts ts),
                       (keyFeatures, Value.vnull),
                       (keySchema, Value.vstr sch),
                       (keyType, Value.vstr t),
                       (keyVersion, Value.vstr ver)] keyFeatures = some Value.vnull from rfl]
                  rw [show lookupKey
                      [(keyCreatedAt, Value.vts ts),
                       (keyFeatures, Value.vnull),
                       (keySchema, Value.vstr sch),
                       (keyType, Value.vstr t),
                       (keyVersion, Value.vstr ver)] keyCreatedAt = some (Value.vts ts) from rfl]
                  dsimp only
                  rw [hbody]
      | none =>
        simp only [isCanon, Bool.and_eq_true, decide_eq_true_eq, lenOK] at hc
        simp only [encodeAny] at he
        split at he
        · simp at he
        · rename_i hdep
          split at he
          · simp at he
          · rename_i hdep1
            split at he
            · simp at he
            · rename_i hdep2
              cases hF : featBytes lim.MaxDepth depth none with
              | none => rw [hF] at he; simp at he
              | some fb =>
                rw [hF] at he
                have hfb : fb = [tagNull] := by
                  have := featBytes_eq hF
                  simpa [featBytesP] using this
                subst hfb
                rw [show encodeSigEntry pc lim.MaxDepth (depth + 2) none = some [] from rfl] at he
                cases hB : encodeAny pc lim.MaxDepth (depth + 1) body with
                | none => rw [hB] at he; simp at he
                | some bb =>
                  rw [hB] at he
                  simp at he
                  subst he
                  obtain ⟨⟨⟨⟨⟨⟨hT, hSch⟩, hVer⟩, -⟩, -⟩, -⟩, hBody⟩ := hc
                  simp only [List.length_cons, List.length_append] at hf
                  obtain ⟨f1, rfl⟩ : ∃ f1, fuel = f1 + 1 := ⟨fuel - 1, by omega⟩
                  simp only [List.cons_append, List.append_assoc, List.nil_append]
                  rw [decodeAny_env, if_neg hdep]
                  obtain ⟨f2, rfl⟩ : ∃ f2, f1 = f2 + 1 := ⟨f1 - 1, by omega⟩
                  rw [decodeAny_obj, if_neg hdep1,
                    readUvarint_enc (by decide : (4 : ℕ) < 2 ^ 64)]
                  dsimp only
                  have hbody : decodeAny pc lim (f2 + 1) (depth + 1) (bb ++ rest) =
                      .ok (body, rest) :=
                    decode_encode body pc lim (depth + 1) bb rest (f2 + 1) hBody hB (by omega)
                  have hgen := decodeObjGen pc lim (depth + 1 + 1)
                    [(keyFeatures, [tagNull], Value.vnull),
                     (keySchema, tagStr :: lenBytes sch, Value.vstr sch),
                     (keyType, tagStr :: lenBytes t, Value.vstr t),
                     (keyVersion, tagStr :: lenBytes ver, Value.vstr ver)]
                    [] (bb ++ rest) f2
                    (by
                      intro p hp f r hfr
                      simp only [List.mem_cons, List.not_mem_nil, or_false] at hp
                      rcases hp with rfl | rfl | rfl | rfl
                      · exact entry_vnull pc lim (depth + 1 + 1) hdep2 f r hfr
                      · exact entry_vstr pc lim (depth + 1 + 1) sch hSch hdep2 f r hfr
                      · exact entry_vstr pc lim (depth + 1 + 1) t hT hdep2 f r hfr
                      · exact entry_vstr pc lim (depth + 1 + 1) ver hVer hdep2 f r hfr)
                    (by
                      intro p hp
                      simp only [List.mem_cons, List.not_mem_nil, or_false] at hp
                      rcases hp with rfl | rfl | rfl | rfl <;> simp)
                    (by
                      intro p hp
                      simp only [List.mem_cons, List.not_mem_nil, or_false] at hp
                      rcases hp with rfl | rfl | rfl | rfl <;> dsimp only <;> decide)
                    (by
                      intro p hp hck
                      simp only [List.mem_cons, List.not_mem_nil, or_false] at hp
                      rcases hp with rfl | rfl | rfl | rfl <;>
                        (dsimp only at hck; exact absurd hck (by decide)))
                    (by intro p _ kv hkv; simp at hkv)
                    (by simp [List.pairwise_cons] <;> decide)
                    (by
                      simp only [List.map_cons, List.map_nil, List.flatten_cons,
                        List.flatten_nil, List.append_nil, List.length_append,
                        List.length_cons, List.length_nil, List.append_assoc]
                      omega)
                  simp only [List.map_cons, List.map_nil, List.flatten_cons,
                    List.flatten_nil, List.append_nil, List.length_cons, List.length_nil,
                    List.append_assoc, List.cons_append, List.nil_append] at hgen
                  rw [show (0 + 1 + 1 + 1 + 1 : ℕ) = 4 from rfl] at hgen
                  rw [hgen]
                  dsimp only
                  rw [show lookupKey
                      [(keyFeatures, Value.vnull),
                       (keySchema, Value.vstr sch),
                       (keyType, Value.vstr t),
                       (keyVersion, Value.vstr ver)] keyType = some (Value.vstr t) from rfl]
                  rw [show lookupKey
                      [(keyFeatures, Value.vnull),
                       (keySchema, Value.vstr sch),
                       (keyType, Value.vstr t),
                       (keyVersion, Value.vstr ver)] keySchema = some (Value.vstr sch) from rfl]
                  rw [show lookupKey
                      [(keyFeatures, Value.vnull),
                       (keySchema, Value.vstr sch),
                       (keyType, Value.vstr t),
                       (keyVersion, Value.vstr ver)] keyVersion = some (Value.vstr ver) from rfl]
                  rw [show lookupKey
                      [(keyFeatures, Value.vnull),
                       (keySchema, Value.vstr sch),
                       (keyType, Value.vstr t),
                       (keyVersion, Value.vstr ver)] keyFeatures = some Value.vnull from rfl]
                  rw [show lookupKey
                      [(keyFeatures, Value.vnull),
                       (keySchema, Value.vstr sch),
                       (keyType, Value.vstr t),
                       (keyVersion, Value.vstr ver)] keyCreatedAt = none from rfl]
                  dsimp only
                  rw [hbody]
  termination_by structural v => v

theorem decode_encode_items : ∀ (l : List Value) (pc : Bool) (lim : Limits) (depth : ℕ),
    ∀ v ∈ l, ∀ (enc rest : List Byte) (fuel : ℕ),
      isCanon pc v = true →
      encodeAny pc lim.MaxDepth depth v = some enc →
      2 * enc.length ≤ fuel →
      decodeAny pc lim fuel depth (enc ++ rest) = .ok (v, rest)
  | [], pc, lim, depth => by intro v hv; simp at hv
  | a :: t, pc, lim, depth => by
    intro v hv enc rest fuel hc he hf
    rcases List.mem_cons.mp hv with h1 | h1
    · rw [h1] at hc he ⊢
      exact decode_encode a pc lim depth enc rest fuel hc he hf
    · exact decode_encode_items t pc lim depth v h1 enc rest fuel hc he hf
  termination_by structural l => l

theorem decode_encode_fields : ∀ (l : List (List Byte × Value)) (pc : Bool) (lim : Limits)
    (depth : ℕ), ∀ kv ∈ l, ∀ (enc rest : List Byte) (fuel : ℕ),
      isCanon pc kv.2 = true →
      encodeAny pc lim.MaxDepth depth kv.2 = some enc →
      2 * enc.length ≤ fuel →
      decodeAny pc lim fuel depth (enc ++ rest) = .ok (kv.2, rest)
  | [], pc, lim, depth => by intro kv hkv; simp at hkv
  | (k, v) :: t, pc, lim, depth => by
    intro kv hkv enc rest fuel hc he hf
    rcases List.mem_cons.mp hkv with h1 | h1
    · rw [h1] at hc he ⊢
      exact decode_encode v pc lim depth enc rest fuel hc he hf
    · exact decode_encode_fields t pc lim depth kv h1 enc rest fuel hc he hf
  termination_by structural l => l

theorem decode_encode_pairs : ∀ (l : List (Value × Value)) (pc : Bool) (lim : Limits)
    (depth : ℕ), ∀ p ∈ l, ∀ (enc rest : List Byte) (fuel : ℕ),
      (isCanon pc p.1 = true → encodeAny pc lim.MaxDepth depth p.1 = some enc →
        2 * enc.length ≤ fuel → decodeAny pc lim fuel depth (enc ++ rest) = .ok (p.1, rest)) ∧
      (isCanon pc p.2 = true → encodeAny pc lim.MaxDepth depth p.2 = some enc →
        2 * enc.length ≤ fuel → decodeAny pc lim fuel depth (enc ++ rest) = .ok (p.2, rest))
  | [], pc, lim, depth => by intro p hp; simp at hp
  | (k, v) :: t, pc, lim, depth => by
    intro p hp enc rest fuel
    rcases List.mem_cons.mp hp with h1 | h1
    · rw [h1]
      constructor
      · exact fun hc he hf => decode_encode k pc lim depth enc rest fuel hc he hf
      · exact fun hc he hf => decode_encode v pc lim depth enc rest fuel hc he hf
    · exact decode_encode_pairs t pc lim depth p h1 enc rest fuel
  termination_by structural l => l

end

/-! ## Top-level round trip

`DecodeBinary` runs `decodeAny` with fuel `2 * length + 2`, which satisfies
the master theorem's fuel bound. -/

theorem DecodeBinary_EncodeBinary (pc : Bool) (v : Value) (enc : List Byte)
    (hc : isCanon pc v = true) (he : EncodeBinary pc v = some enc) :
    DecodeBinary pc DefaultLimits enc = .ok v := by
  have hd := decode_encode v pc DefaultLimits 0 enc [] (2 * enc.length + 2) hc he (by omega)
  rw [List.append_nil] at hd
  rw [DecodeBinary, hd]

/-! ## Connexity of the byte order -/

theorem blt_connex : ∀ a b : List Byte, blt a b = false → blt b a = false → a = b := by
  intro a
  induction a with
  | nil =>
    intro b h1 _
    cases b with
    | nil => rfl
    | cons y ys => simp [blt] at h1
  | cons x xs ih =>
    intro b h1 h2
    cases b with
    | nil => simp [blt] at h2
    | cons y ys =>
      simp only [blt] at h1 h2
      by_cases hxy : x.val < y.val
      · simp [hxy] at h1
      · by_cases hyx : y.val < x.val
        · simp [hyx] at h2
        · simp [hxy, hyx] at h1 h2
          have hx : x = y := Fin.ext (by omega)
          rw [hx, ih ys h1 h2]

/-! ## Canonical object encoding is insertion-order independent -/

instance : IsTotal (List Byte × List Byte) leKey where
  total a b := by
    unfold leKey
    cases h : blt b.1 a.1 with
    | false => exact Or.inl rfl
    | true => exact Or.inr (blt_asymm _ _ h)

instance : IsTrans (List Byte × List Byte) leKey where
  trans a b c hab hbc := by
    unfold leKey at *
    cases h : blt c.1 a.1 with
    | false => rfl
    | true =>
      exfalso
      cases hbc' : blt b.1 c.1 with
      | true =>
        have := blt_trans _ _ _ hbc' h
        rw [this] at hab
        exact Bool.noConfusion hab
      | false =>
        have hbceq : b.1 = c.1 := blt_connex _ _ hbc' hbc
        rw [← hbceq] at h
        rw [h] at hab
        exact Bool.noConfusion hab

/-- Two lists that are permutations of one another and both strictly
ascending in their keys are equal. -/
theorem sorted_strict_unique : ∀ l₁ l₂ : List (List Byte × List Byte),
    l₁.Perm l₂ → l₁.Pairwise (fun a b => blt a.1 b.1 = true) →
    l₂.Pairwise (fun a b => blt a.1 b.1 = true) → l₁ = l₂ := by
  intro l₁
  induction l₁ with
  | nil =>
    intro l₂ hp _ _
    exact (hp.symm.eq_nil).symm ▸ rfl
  | cons a t₁ ih =>
    intro l₂ hp h₁ h₂
    cases l₂ with
    | nil => exact absurd hp.eq_nil (by simp)
    | cons b t₂ =>
      by_cases hab : a = b
      · subst hab
        rw [ih t₂ hp.cons_inv (List.pairwise_cons.mp h₁).2 (List.pairwise_cons.mp h₂).2]
      · exfalso
        have ha2 : a ∈ t₂ := by
          have := hp.mem_iff.mp (List.mem_cons_self a t₁)
          rcases List.mem_cons.mp this with h | h
          · exact absurd h hab
          · exact h
        have hb1 : b ∈ t₁ := by
          have := hp.mem_iff.mpr (List.mem_cons_self b t₂)
          rcases List.mem_cons.mp this with h | h
          · exact absurd h.symm hab
          · exact h
        have hab1 : blt a.1 b.1 = true := (List.pairwise_cons.mp h₁).1 b hb1
        have hba1 : blt b.1 a.1 = true := (List.pairwise_cons.mp h₂).1 a ha2
        have := blt_asymm _ _ hab1
        rw [hba1] at this
        exact Bool.noConfusion this

/-- `encPFields` written as a filter followed by a map. -/
theorem encPFields_eq_filterMap (pc : Bool) : ∀ l : List (List Byte × Value),
    encPFields pc l =
      (l.filter (fun kv => !(decide (kv.1 = commentKey) && !pc))).map
        (fun kv => (kv.1, encP pc kv.2)) := by
  intro l
  induction l with
  | nil => rfl
  | cons kv t ih =>
    obtain ⟨k, v⟩ := kv
    rw [encPFields]
    by_cases h : k = commentKey ∧ ¬ pc
    · obtain ⟨hk, hpc⟩ := h
      have hpf : pc = false := by
        cases pc
        · rfl
        · exact absurd rfl hpc
      subst hk hpf
      rw [if_pos ⟨rfl, by simp⟩, ih]
      simp [List.filter_cons]
    · rw [if_neg h, ih, List.filter_cons]
      have : (!(decide (k = commentKey) && !pc)) = true := by
        by_cases hk : k = commentKey
        · subst hk
          rcases Decidable.not_and_iff_or_not.mp h with h' | h'
          · exact absurd rfl h'
          · have : pc = true := by
              cases pc
              · exact absurd (by simp) h'
              · rfl
            simp [this]
        · simp [hk]
      rw [this]
      simp

theorem sorted_nodup_strict (l : List (List Byte × List Byte))
    (hs : l.Sorted leKey) (hnd : (l.map (fun kv => kv.1)).Nodup) :
    l.Pairwise (fun a b => blt a.1 b.1 = true) := by
  have hnd' : l.Pairwise (fun a b => ¬ a.1 = b.1) := List.pairwise_map.mp hnd
  have hcomb := hs.and hnd'
  refine hcomb.imp ?_
  intro a b hab
  obtain ⟨hle, hne⟩ := hab
  cases h : blt a.1 b.1 with
  | true => rfl
  | false => exact absurd (blt_connex _ _ h hle) hne

theorem encPFields_perm (pc : Bool) {l₁ l₂ : List (List Byte × Value)}
    (hp : l₁.Perm l₂) : (encPFields pc l₁).Perm (encPFields pc l₂) := by
  rw [encPFields_eq_filterMap, encPFields_eq_filterMap]
  exact (hp.filter _).map _

theorem encPFields_keys_sublist (pc : Bool) (l : List (List Byte × Value)) :
    ((encPFields pc l).map (fun kv => kv.1)).Sublist (l.map (fun kv => kv.1)) := by
  rw [encPFields_eq_filterMap, List.map_map]
  have h1 : (l.filter (fun kv => !(decide (kv.1 = commentKey) && !pc))).Sublist l :=
    List.filter_sublist l
  have := h1.map (fun kv => kv.1)
  simpa [Function.comp_def] using this

/-- The canonical object body: two permuted field lists with duplicate-free
keys produce the same sorted entry list. -/
theorem encP_obj_perm (pc : Bool) (f₁ f₂ : List (List Byte × Value))
    (hperm : f₁.Perm f₂) (hnd : (f₁.map (fun kv => kv.1)).Nodup) :
    encP pc (.vobj f₁) = encP pc (.vobj f₂) := by
  have hpf : (encPFields pc f₁).Perm (encPFields pc f₂) := encPFields_perm pc hperm
  have hnd₂ : (f₂.map (fun kv => kv.1)).Nodup := ((hperm.map _).nodup_iff).mp hnd
  have hk₁ : ((encPFields pc f₁).map (fun kv => kv.1)).Nodup :=
    (encPFields_keys_sublist pc f₁).nodup hnd
  have hk₂ : ((encPFields pc f₂).map (fun kv => kv.1)).Nodup :=
    (encPFields_keys_sublist pc f₂).nodup hnd₂
  have hs₁ : ((encPFields pc f₁).insertionSort leKey).Sorted leKey :=
    List.sorted_insertionSort leKey _
  have hs₂ : ((encPFields pc f₂).insertionSort leKey).Sorted leKey :=
    List.sorted_insertionSort leKey _
  have hks₁ : (((encPFields pc f₁).insertionSort leKey).map (fun kv => kv.1)).Nodup :=
    (((List.perm_insertionSort leKey (encPFields pc f₁))).map _).nodup_iff.mpr hk₁
  have hks₂ : (((encPFields pc f₂).insertionSort leKey).map (fun kv => kv.1)).Nodup :=
    (((List.perm_insertionSort leKey (encPFields pc f₂))).map _).nodup_iff.mpr hk₂
  have heq : (encPFields pc f₁).insertionSort leKey =
      (encPFields pc f₂).insertionSort leKey :=
    sorted_strict_unique _ _
      ((List.perm_insertionSort leKey _).trans
        (hpf.trans (List.perm_insertionSort leKey _).symm))
      (sorted_nodup_strict _ hs₁ hks₁)
      (sorted_nodup_strict _ hs₂ hks₂)
  simp only [encP]
  rw [heq, hpf.length_eq]

/-! ## The decoder never consults `MaxBytes`

A one-step unfolding equation for `decodeAny` at positive fuel (stated by
hand, proved by `rfl`), then fuel induction showing the result is
independent of the `MaxBytes` field of `Limits`. -/

theorem decodeAny_succ (pc : Bool) (lim : Limits) (f depth : ℕ) (bs : List Byte) :
    decodeAny pc lim (f + 1) depth bs =
    (if depth > lim.MaxDepth then .error .tooDeep
     else
      match readByte bs with
      | .error e => .error e
      | .ok (tag, r0) =>
        if tag = tagNull then .ok (.vnull, r0)
        else if tag = tagF then .ok (.vbool false, r0)
        else if tag = tagT then .ok (.vbool true, r0)
        else if tag = tagStr ∨ tag = tagTS ∨ tag = tagDate ∨ tag = tagTime ∨
            tag = tagLink ∨ tag = tagAnnot then
          match readUvarint r0 with
          | .error e => .error e
          | .ok (n, r1) =>
            match readN n r1 with
            | .error e => .error e
            | .ok (sb, r2) =>
              if tag = tagStr then .ok (.vstr sb, r2)
              else if tag = tagTS then .ok (.vts sb, r2)
              else if tag = tagDate then .ok (.vdate sb, r2)
              else if tag = tagTime then .ok (.vtime sb, r2)
              else if tag = tagLink then .ok (.vlink sb, r2)
              else .ok (.vannot sb, r2)
        else if tag = tagBin then
          match readUvarint r0 with
          | .error e => .error e
          | .ok (n, r1) =>
            match readN n r1 with
            | .error e => .error e
            | .ok (sb, r2) => .ok (.vbin sb, r2)
        else if tag = tagInt then
          match readUvarint r0 with
          | .error e => .error e
          | .ok (n, r1) =>
            if n = 0 then .ok (.vint 0, r1)
            else
              match (match readByte r1 with
                     | .ok (b, r) => (b, r)
                     | .error _ => ((0 : Byte), r1)) with
              | (sign, r2) =>
                match readN (n - 1) r2 with
                | .error e => .error e
                | .ok (mag, r3) =>
                  let z : ℤ := bytesToNat mag
                  .ok (.vint (if sign = (0x01 : Byte) then -z else z), r3)
        else if tag = tagDec then
          match (match readByte r0 with
                 | .ok (b, r) => (b, r)
                 | .error _ => ((0 : Byte), r0)) with
          | (sign, r1) =>
            match readUvarint r1 with
            | .error e => .error e
            | .ok (u, r2) =>
              match readUvarint r2 with
              | .error e => .error e
              | .ok (ln, r3) =>
                match readN ln r3 with
                | .error e => .error e
                | .ok (coef, r4) =>
                  .ok (.vdec (sign = (0x01 : Byte)) (toInt32 (zigzagDec u))
                    (bytesToNat coef), r4)
        else if tag = tagArr then
          match readUvarint r0 with
          | .error e => .error e
          | .ok (count, r1) =>
            match decodeMany pc lim f count (depth + 1) r1 with
            | .error e => .error e
            | .ok (out, r2) => .ok (.varr out, r2)
        else if tag = tagObj then
          match readUvarint r0 with
          | .error e => .error e
          | .ok (count, r1) =>
            match decodeObjEntries pc lim f count (depth + 1) [] r1 with
            | .error e => .error e
            | .ok (obj, r2) => .ok (.vobj obj, r2)
        else if tag = tagUUID then
          match readN 16 r0 with
          | .error e => .error e
          | .ok (u, r1) => .ok (.vuuid u, r1)
        else if tag = tagSet then
          match readUvarint r0 with
          | .error e => .error e
          | .ok (count, r1) =>
            match decodeMany pc lim f count (depth + 1) r1 with
            | .error e => .error e
            | .ok (out, r2) => .ok (.vset out, r2)
        else if tag = tagMap then
          match readUvarint r0 with
          | .error e => .error e
          | .ok (count, r1) =>
            match decodeMapEntries pc lim f count (depth + 1) [] r1 with
            | .error e => .error e
            | .ok (out, r2) => .ok (.vmap out, r2)
        else if tag = tagEnv then
          match decodeAny pc lim f (depth + 1) r0 with
          | .error e => .error e
          | .ok (metaAny, r1) =>
            match metaAny with
            | .vobj m =>
              let t := match lookupKey m keyType with
                       | some (.vstr s) => s
                       | _ => []
              let sch := match lookupKey m keySchema with
                         | some (.vstr s) => s
                         | _ => []
              let ver := match lookupKey m keyVersion with
                         | some (.vstr s) => s
                         | _ => []
              let fs := match lookupKey m keyFeatures with
                        | some (.varr items) => some (collectStrings items)
                        | _ => none
              let cr := match lookupKey m keyCreatedAt with
                        | some (.vts s) => some s
                        | some (.vobj m2) =>
                          (match lookupKey m2 keyValue with
                           | some (.vstr s) => some s
                           | _ => none)
                        | _ => none
              match decodeAny pc lim f (depth + 1) r1 with
              | .error e => .error e
              | .ok (body, r2) =>
                .ok (.venv t sch ver fs cr none body, r2)
            | _ => .error .badEnvelope
        else .error (.unknownTag tag)) := rfl

theorem decodeMany_zero_succ (pc : Bool) (lim : Limits) (c depth : ℕ) (bs : List Byte) :
    decodeMany pc lim 0 (c + 1) depth bs = .error .outOfFuel := rfl

theorem decodeObjEntries_zero_succ (pc : Bool) (lim : Limits) (c depth : ℕ)
    (acc : List (List Byte × Value)) (bs : List Byte) :
    decodeObjEntries pc lim 0 (c + 1) depth acc bs = .error .outOfFuel := rfl

theorem decodeMapEntries_zero_succ (pc : Bool) (lim : Limits) (c depth : ℕ)
    (acc : List (Value × Value)) (bs : List Byte) :
    decodeMapEntries pc lim 0 (c + 1) depth acc bs = .error .outOfFuel := rfl

theorem decode_maxBytes_irrel : ∀ f : ℕ,
    (∀ (pc : Bool) (md mb₁ mb₂ depth : ℕ) (bs : List Byte),
      decodeAny pc ⟨md, mb₁⟩ f depth bs = decodeAny pc ⟨md, mb₂⟩ f depth bs) ∧
    (∀ (pc : Bool) (md mb₁ mb₂ count depth : ℕ) (bs : List Byte),
      decodeMany pc ⟨md, mb₁⟩ f count depth bs = decodeMany pc ⟨md, mb₂⟩ f count depth bs) ∧
    (∀ (pc : Bool) (md mb₁ mb₂ count depth : ℕ) (acc : List (List Byte × Value))
      (bs : List Byte),
      decodeObjEntries pc ⟨md, mb₁⟩ f count depth acc bs =
        decodeObjEntries pc ⟨md, mb₂⟩ f count depth acc bs) ∧
    (∀ (pc : Bool) (md mb₁ mb₂ count depth : ℕ) (acc : List (Value × Value))
      (bs : List Byte),
      decodeMapEntries pc ⟨md, mb₁⟩ f count depth acc bs =
        decodeMapEntries pc ⟨md, mb₂⟩ f count depth acc bs) := by
  intro f
  induction f with
  | zero =>
    refine ⟨fun _ _ _ _ _ _ => rfl, ?_, ?_, ?_⟩
    · intro pc md mb₁ mb₂ count depth bs
      cases count with
      | zero => rfl
      | succ c => rfl
    · intro pc md mb₁ mb₂ count depth acc bs
      cases count with
      | zero => rfl
      | succ c => rfl
    · intro pc md mb₁ mb₂ count depth acc bs
      cases count with
      | zero => rfl
      | succ c => rfl
  | succ f ih =>
    obtain ⟨ihA, ihM, ihO, ihP⟩ := ih
    refine ⟨?_, ?_, ?_, ?_⟩
    · intro pc md mb₁ mb₂ depth bs
      rw [decodeAny_succ, decodeAny_succ]
      simp only [ihA pc md mb₁ mb₂, ihM pc md mb₁ mb₂, ihO pc md mb₁ mb₂, ihP pc md mb₁ mb₂]
    · intro pc md mb₁ mb₂ count depth bs
      cases count with
      | zero => rfl
      | succ c =>
        rw [decodeMany_succ, decodeMany_succ]
        simp only [ihA pc md mb₁ mb₂, ihM pc md mb₁ mb₂]
    · intro pc md mb₁ mb₂ count depth acc bs
      cases count with
      | zero => rfl
      | succ c =>
        rw [decodeObjEntries_succ, decodeObjEntries_succ]
        simp only [ihA pc md mb₁ mb₂, ihO pc md mb₁ mb₂]
    · intro pc md mb₁ mb₂ count depth acc bs
      cases count with
      | zero => rfl
      | succ c =>
        rw [decodeMapEntries_succ, decodeMapEntries_succ]
        simp only [ihA pc md mb₁ mb₂, ihP pc md mb₁ mb₂]

/-! ## `StripJSONComments` (the JSON comment preprocessor)

A direct transcription of the byte-level state machine: `scStep` is one
iteration of the `switch`, returning the bytes appended to `out` and the
next state; `scRun` is the loop; the trailing `state == sSlash` fix-up
emits the pending slash. -/

inductive SCState where
  | sNorm
  | sStr
  | sStrEsc
  | sSlash
  | sLine
  | sBlock
  | sBlockStar
deriving DecidableEq, Repr

def scStep (st : SCState) (c : Byte) : List Byte × SCState :=
  match st with
  | .sNorm =>
    if c = 34 then ([c], .sStr)
    else if c = 47 then ([], .sSlash)
    else ([c], .sNorm)
  | .sSlash =>
    if c = 47 then ([], .sLine)
    else if c = 42 then ([], .sBlock)
    else ([47, c], .sNorm)
  | .sLine =>
    if c = 10 ∨ c = 13 then ([c], .sNorm) else ([], .sLine)
  | .sBlock =>
    if c = 42 then ([], .sBlockStar) else ([], .sBlock)
  | .sBlockStar =>
    if c = 47 then ([], .sNorm)
    else if ¬ c = 42 then ([], .sBlock)
    else ([], .sBlockStar)
  | .sStr =>
    if c = 92 then ([c], .sStrEsc)
    else if c = 34 then ([c], .sNorm)
    else ([c], .sStr)
  | .sStrEsc => ([c], .sStr)

def scRun (st : SCState) : List Byte → List Byte × SCState
  | [] => ([], st)
  | c :: cs =>
    match scStep st c with
    | (o, st1) =>
      match scRun st1 cs with
      | (os, stF) => (o ++ os, stF)

def StripJSONComments (b : List Byte) : List Byte :=
  match scRun .sNorm b with
  | (o, stF) => if stF = .sSlash then o ++ [47] else o

/-! ## `DecryptJOLT` (the `joltsec` envelope)

`writeVarBytes` is `uvarint(len) ++ bytes`, i.e. `lenBytes`; `readVarBytes`
is `readUvarint` then `readN`.  External effects are parameters: `ph`
models `json.Unmarshal` of the AAD into a `Header`, `kr` models
`Keyring.Get`, `aopen` models `AEAD.Open` (key, nonce, ciphertext, AAD).
The two registered suites both use 32-byte keys. -/

structure SecHeader where
  alg : List Byte
  kid : List Byte
deriving DecidableEq, Repr

inductive SecErr where
  | truncated
  | badMagic
  | badVersion
  | badHeader
  | headerMismatch
  | unsupportedAlg
  | keyError
  | keyLenMismatch
  | openFailed
  | decodeFailed
deriving DecidableEq, Repr

def magicJSEC : List Byte := [74, 83, 69, 67]

def algXChaCha : List Byte :=
  [88, 67, 72, 65, 67, 72, 65, 50, 48, 45, 80, 79, 76, 89, 49, 51, 48, 53]

def algAESGCM : List Byte := [65, 69, 83, 45, 50, 53, 54, 45, 71, 67, 77]

def suiteKeyLen (alg : List Byte) : Option ℕ :=
  if alg = algXChaCha then some 32
  else if alg = algAESGCM then some 32
  else none

def readVarBytesJS (b : List Byte) : Except SecErr (List Byte × List Byte) :=
  match readUvarint b with
  | .error _ => .error .truncated
  | .ok (n, r) =>
    match readN n r with
    | .error _ => .error .truncated
    | .ok (v, r2) => .ok (v, r2)

def DecryptJOLT (ph : List Byte → Option SecHeader)
    (kr : List Byte → Option (List Byte))
    (aopen : List Byte → List Byte → List Byte → List Byte → Option (List Byte))
    (jsec : List Byte) : Except SecErr (Value × SecHeader) :=
  match readN 4 jsec with
  | .error _ => .error .truncated
  | .ok (magic, r1) =>
    if ¬ magic = magicJSEC then .error .badMagic
    else
      match readByte r1 with
      | .error _ => .error .truncated
      | .ok (ver, r2) =>
        if ¬ ver = (0x01 : Byte) then .error .badVersion
        else
          match readVarBytesJS r2 with
          | .error e => .error e
          | .ok (alg, r3) =>
            match readVarBytesJS r3 with
            | .error e => .error e
            | .ok (kid, r4) =>
              match readVarBytesJS r4 with
              | .error e => .error e
              | .ok (nonce, r5) =>
                match readVarBytesJS r5 with
                | .error e => .error e
                | .ok (aad, r6) =>
                  match readVarBytesJS r6 with
                  | .error e => .error e
                  | .ok (ct, _) =>
                    match ph aad with
                    | none => .error .badHeader
                    | some hdr =>
                      if ¬ hdr.kid = kid ∨ ¬ alg = hdr.alg then .error .headerMismatch
                      else
                        match suiteKeyLen hdr.alg with
                        | none => .error .unsupportedAlg
                        | some kl =>
                          match kr hdr.kid with
                          | none => .error .keyError
                          | some key =>
                            if ¬ key.length = kl then .error .keyLenMismatch
                            else
                              match aopen key nonce ct aad with
                              | none => .error .openFailed
                              | some pt =>
                                match DecodeBinary false DefaultLimits pt with
                                | .error _ => .error .decodeFailed
                                | .ok v => .ok (v, hdr)

theorem readVarBytesJS_lenBytes (s r : List Byte) (h : s.length < 2 ^ 64) :
    readVarBytesJS (lenBytes s ++ r) = .ok (s, r) := by
  rw [readVarBytesJS, lenBytes, List.append_assoc, readUvarint_enc h]
  dsimp only
  rw [readN_append]

/-- Decoding a well-formed `tagDec` wire: sign byte, zigzag uvarint exponent
(truncated through `int32`), uvarint-length coefficient magnitude. -/
theorem decode_dec_wire (pc : Bool) (lim : Limits) (depth : ℕ) (sb : Byte)
    (u : ℕ) (mag r : List Byte) (hu : u < 2 ^ 64) (hmag : mag.length < 2 ^ 64)
    (hdep : ¬ depth > lim.MaxDepth) (f : ℕ) :
    decodeAny pc lim (f + 1) depth ((tagDec :: sb :: uvarintEnc u ++ lenBytes mag) ++ r) =
      .ok (.vdec (decide (sb = (0x01 : Byte))) (toInt32 (zigzagDec u)) (bytesToNat mag), r) := by
  rw [List.cons_append, List.cons_append, List.append_assoc, decodeAny_dec, if_neg hdep]
  rw [List.cons_append, readByte_cons]
  dsimp only
  rw [readUvarint_enc hu]
  dsimp only
  rw [lenBytes, List.append_assoc, readUvarint_enc hmag]
  dsimp only
  rw [readN_append]

/-! ## Claims -/

deriving instance DecidableEq for Except

/-- C1: round trip `DecodeBinary (EncodeBinary v) = v` for the data model.
As stated in the spec the property fails (see the counterexample: a Set
whose elements are not listed in encoded-byte order comes back reordered,
and comment keys / duplicate handling introduce further gaps); it holds for
canonical values, i.e. values invariant under the encoder's normalization
(`isCanon`): string/key lengths below `2^64`, object keys strictly
ascending, set/map entries already in encoded-byte order, 16-byte UUIDs,
in-range decimal exponents, no comment keys when stripping, no signature. -/
theorem C1_round_trip (pc : Bool) (v : Value) (enc : List Byte)
    (hc : isCanon pc v = true) (he : EncodeBinary pc v = some enc) :
    DecodeBinary pc DefaultLimits enc = .ok v :=
  DecodeBinary_EncodeBinary pc v enc hc he

theorem C1_round_trip_witness :
    isCanon true (Value.vobj [([97], Value.vint 5), ([98], Value.vstr [104, 105])]) = true ∧
    EncodeBinary true (Value.vobj [([97], Value.vint 5), ([98], Value.vstr [104, 105])]) =
      some [8, 2, 1, 97, 3, 2, 0, 5, 1, 98, 5, 2, 104, 105] ∧
    DecodeBinary true DefaultLimits [8, 2, 1, 97, 3, 2, 0, 5, 1, 98, 5, 2, 104, 105] =
      .ok (Value.vobj [([97], Value.vint 5), ([98], Value.vstr [104, 105])]) :=
  ⟨by decide, by decide,
    C1_round_trip true (Value.vobj [([97], Value.vint 5), ([98], Value.vstr [104, 105])])
      [8, 2, 1, 97, 3, 2, 0, 5, 1, 98, 5, 2, 104, 105] (by decide) (by decide)⟩

theorem C1_counterexample :
    EncodeBinary true (Value.vset [Value.vstr [98], Value.vstr [97]]) =
      some [12, 2, 5, 1, 97, 5, 1, 98] ∧
    DecodeBinary true DefaultLimits [12, 2, 5, 1, 97, 5, 1, 98] =
      .ok (Value.vset [Value.vstr [97], Value.vstr [98]]) ∧
    ¬ Value.vset [Value.vstr [97], Value.vstr [98]] =
      Value.vset [Value.vstr [98], Value.vstr [97]] := by
  refine ⟨by decide, by decide, by decide⟩

/-- C2: two Obj values equal up to key insertion order encode to identical
bytes, because the encoder sorts object entries by key (byte-ascending)
before emission.  Stated for field lists that are permutations of one
another with duplicate-free keys (Go map semantics). -/
theorem C2_obj_key_order (pc : Bool) (f₁ f₂ : List (List Byte × Value))
    (hperm : f₁.Perm f₂) (hnd : (f₁.map (fun kv => kv.1)).Nodup)
    (e₁ e₂ : List Byte)
    (h₁ : EncodeBinary pc (.vobj f₁) = some e₁)
    (h₂ : EncodeBinary pc (.vobj f₂) = some e₂) : e₁ = e₂ := by
  have g₁ : e₁ = encP pc (.vobj f₁) := encodeAny_eq_encP _ pc _ 0 e₁ h₁
  have g₂ : e₂ = encP pc (.vobj f₂) := encodeAny_eq_encP _ pc _ 0 e₂ h₂
  rw [g₁, g₂, encP_obj_perm pc f₁ f₂ hperm hnd]

theorem C2_obj_key_order_witness :
    ([([97], Value.vnull), ([98], Value.vbool true)] :
        List (List Byte × Value)).Perm [([98], Value.vbool true), ([97], Value.vnull)] ∧
    (([([97], Value.vnull), ([98], Value.vbool true)] :
        List (List Byte × Value)).map (fun kv => kv.1)).Nodup ∧
    EncodeBinary true (.vobj [([97], Value.vnull), ([98], Value.vbool true)]) =
      some [8, 2, 1, 97, 0, 1, 98, 2] ∧
    EncodeBinary true (.vobj [([98], Value.vbool true), ([97], Value.vnull)]) =
      some [8, 2, 1, 97, 0, 1, 98, 2] ∧
    ([8, 2, 1, 97, 0, 1, 98, 2] : List Byte) = [8, 2, 1, 97, 0, 1, 98, 2] :=
  ⟨by decide, by decide, by decide, by decide,
    C2_obj_key_order true [([97], Value.vnull), ([98], Value.vbool true)]
      [([98], Value.vbool true), ([97], Value.vnull)] (by decide) (by decide)
      [8, 2, 1, 97, 0, 1, 98, 2] [8, 2, 1, 97, 0, 1, 98, 2] (by decide) (by decide)⟩

/-- C3: the spec says Set elements are deduplicated (S4: count 2, festival
before gift).  The code does not deduplicate, and the sort is by encoded
bytes in which the uvarint length prefix compares first, so the shorter
"gift" sorts before "festival": the actual encoding of
`["gift","festival","gift"]` has count 3 in order gift, gift, festival
(see the counterexample).  What holds: a Set encodes as its count followed
by the member encodings sorted ascending by encoded bytes, multiplicity
preserved. -/
theorem C3_set_encoding (pc : Bool) (items : List Value) (enc : List Byte)
    (he : EncodeBinary pc (.vset items) = some enc) :
    enc = tagSet :: uvarintEnc items.length ++
      ((items.map (encP pc)).insertionSort leBytes).flatten := by
  have h := encodeAny_eq_encP _ pc _ 0 enc he
  rw [h]
  simp only [encP, encPItems_eq_map, List.length_map]

theorem C3_set_encoding_witness :
    EncodeBinary true (Value.vset
        [Value.vstr [103, 105, 102, 116], Value.vstr [102, 101, 115, 116, 105, 118, 97, 108],
         Value.vstr [103, 105, 102, 116]]) =
      some [12, 3, 5, 4, 103, 105, 102, 116, 5, 4, 103, 105, 102, 116,
        5, 8, 102, 101, 115, 116, 105, 118, 97, 108] ∧
    ([12, 3, 5, 4, 103, 105, 102, 116, 5, 4, 103, 105, 102, 116,
        5, 8, 102, 101, 115, 116, 105, 118, 97, 108] : List Byte) =
      tagSet :: uvarintEnc ([Value.vstr [103, 105, 102, 116],
          Value.vstr [102, 101, 115, 116, 105, 118, 97, 108],
          Value.vstr [103, 105, 102, 116]] : List Value).length ++
        ((([Value.vstr [103, 105, 102, 116],
            Value.vstr [102, 101, 115, 116, 105, 118, 97, 108],
            Value.vstr [103, 105, 102, 116]] : List Value).map
          (encP true)).insertionSort leBytes).flatten :=
  ⟨by decide,
    C3_set_encoding true
      [Value.vstr [103, 105, 102, 116], Value.vstr [102, 101, 115, 116, 105, 118, 97, 108],
       Value.vstr [103, 105, 102, 116]]
      [12, 3, 5, 4, 103, 105, 102, 116, 5, 4, 103, 105, 102, 116,
        5, 8, 102, 101, 115, 116, 105, 118, 97, 108] (by decide)⟩

theorem C3_counterexample :
    EncodeBinary true (Value.vset
        [Value.vstr [103, 105, 102, 116], Value.vstr [102, 101, 115, 116, 105, 118, 97, 108],
         Value.vstr [103, 105, 102, 116]]) =
      some [12, 3, 5, 4, 103, 105, 102, 116, 5, 4, 103, 105, 102, 116,
        5, 8, 102, 101, 115, 116, 105, 118, 97, 108] ∧
    ¬ ([12, 3, 5, 4, 103, 105, 102, 116, 5, 4, 103, 105, 102, 116,
        5, 8, 102, 101, 115, 116, 105, 118, 97, 108] : List Byte) =
      [12, 2, 5, 8, 102, 101, 115, 116, 105, 118, 97, 108, 5, 4, 103, 105, 102, 116] := by
  refine ⟨by decide, by decide⟩

/-- C4: the spec says Int zero is the tag followed by the single uvarint
byte `0x00`; the code encodes `L = len(mag) + 1 = 1` and always emits a
sign byte, so zero is `0x03 0x01 0x00` (three bytes), never `0x03 0x00`
(see the counterexample). -/
theorem C4_int_zero (pc : Bool) :
    EncodeBinary pc (Value.vint 0) = some [tagInt, 0x01, 0x00] := by
  cases pc <;> rfl

theorem C4_counterexample :
    EncodeBinary true (Value.vint 0) = some [3, 1, 0] ∧
    ¬ ([3, 1, 0] : List Byte) = [3, 0] := by
  refine ⟨by decide, by decide⟩

/-- C5: the spec says exceeding `MaxBytes` fails decoding with a
`TooLarge` error.  The decoder never reads the `MaxBytes` field at all:
its result is the same for every value of `MaxBytes` (this theorem), and
the counterexample decodes a payload successfully under `MaxBytes = 0`. -/
theorem C5_maxBytes_ignored (pc : Bool) (md mb₁ mb₂ : ℕ) (b : List Byte) :
    DecodeBinary pc ⟨md, mb₁⟩ b = DecodeBinary pc ⟨md, mb₂⟩ b := by
  rw [DecodeBinary, DecodeBinary, (decode_maxBytes_irrel (2 * b.length + 2)).1 pc md mb₁ mb₂ 0 b]

theorem C5_counterexample :
    DecodeBinary true ⟨1024, 0⟩ [5, 1, 65] = .ok (Value.vstr [65]) := by
  decide

/-- C6: the spec says unrecognized Meta keys survive encode-then-decode.
The decoder rebuilds the envelope metadata from exactly the five
recognized lookups (`type`, `schema`, `version`, `features`, `createdAt`;
`sig` is never assigned) and discards every other key of the decoded meta
object — this theorem exhibits the decoded result as a function of those
lookups only, and the counterexample shows a meta key `"zzz"` that is lost
by decode followed by re-encode. -/
theorem C6_env_meta_lookups (pc : Bool) (lim : Limits) (f depth : ℕ)
    (r r1 r2 : List Byte) (m : List (List Byte × Value)) (body : Value)
    (hdep : ¬ depth > lim.MaxDepth)
    (hm : decodeAny pc lim f (depth + 1) r = .ok (.vobj m, r1))
    (hb : decodeAny pc lim f (depth + 1) r1 = .ok (body, r2)) :
    decodeAny pc lim (f + 1) depth (tagEnv :: r) = .ok (.venv
      (match lookupKey m keyType with | some (.vstr s) => s | _ => [])
      (match lookupKey m keySchema with | some (.vstr s) => s | _ => [])
      (match lookupKey m keyVersion with | some (.vstr s) => s | _ => [])
      (match lookupKey m keyFeatures with
       | some (.varr items) => some (collectStrings items)
       | _ => none)
      (match lookupKey m keyCreatedAt with
       | some (.vts s) => some s
       | some (.vobj m2) =>
         (match lookupKey m2 keyValue with | some (.vstr s) => some s | _ => none)
       | _ => none)
      none body, r2) := by
  rw [decodeAny_env, if_neg hdep, hm]
  dsimp only
  rw [hb]

theorem C6_env_meta_lookups_witness :
    ¬ (0 : ℕ) > DefaultLimits.MaxDepth ∧
    decodeAny true DefaultLimits 20 1 [8, 1, 3, 122, 122, 122, 0, 0] =
      .ok (.vobj [([122, 122, 122], Value.vnull)], [0]) ∧
    decodeAny true DefaultLimits 20 1 [0] = .ok (Value.vnull, []) ∧
    decodeAny true DefaultLimits 21 0 (tagEnv :: [8, 1, 3, 122, 122, 122, 0, 0]) =
      .ok (Value.venv [] [] [] none none none Value.vnull, []) :=
  ⟨by decide, by decide, by decide,
    C6_env_meta_lookups true DefaultLimits 20 0 [8, 1, 3, 122, 122, 122, 0, 0] [0] []
      [([122, 122, 122], Value.vnull)] Value.vnull (by decide) (by decide) (by decide)⟩

theorem C6_counterexample :
    DecodeBinary true DefaultLimits [17, 8, 1, 3, 122, 122, 122, 0, 0] =
      .ok (Value.venv [] [] [] none none none Value.vnull) ∧
    ¬ EncodeBinary true (Value.venv [] [] [] none none none Value.vnull) =
      some [17, 8, 1, 3, 122, 122, 122, 0, 0] := by
  refine ⟨by decide, by decide⟩

/-- C7: the spec says a Str payload that is not valid UTF-8 fails decoding
with `InvalidUTF8`.  The decoder performs no UTF-8 validation: it returns
the raw payload bytes for any payload (this theorem has no validity
hypothesis), and the counterexample decodes the invalid byte `0xFF`
successfully. -/
theorem C7_str_not_validated (pc : Bool) (lim : Limits) (depth : ℕ) (s : List Byte)
    (h64 : s.length < 2 ^ 64) (hdep : ¬ depth > lim.MaxDepth)
    (f : ℕ) (r : List Byte) (hf : 2 * (tagStr :: lenBytes s).length ≤ f) :
    decodeAny pc lim f depth ((tagStr :: lenBytes s) ++ r) = .ok (.vstr s, r) :=
  entry_vstr pc lim depth s h64 hdep f r hf

theorem C7_str_not_validated_witness :
    utf8Valid [255] = false ∧
    decodeAny true DefaultLimits 10 0 [5, 1, 255] = .ok (Value.vstr [255], []) :=
  ⟨by decide,
    C7_str_not_validated true DefaultLimits 0 [255] (by decide) (by decide) 10 []
      (by decide)⟩

theorem C7_counterexample :
    DecodeBinary true DefaultLimits [5, 1, 255] = .ok (Value.vstr [255]) ∧
    utf8Valid [255] = false := by
  refine ⟨by decide, by decide⟩

/-- C8: `StripJSONComments` emits every byte read in a string state
verbatim (states `sStr` and `sStrEsc` always append exactly the input
byte), and the S3 input `{"x":"not // a comment","y":"/* also not */"}`
passes through unchanged. -/
theorem C8_strip_comments :
    (∀ c : Byte, (scStep .sStr c).1 = [c]) ∧
    (∀ c : Byte, (scStep .sStrEsc c).1 = [c]) ∧
    StripJSONComments
      [123, 34, 120, 34, 58, 34, 110, 111, 116, 32, 47, 47, 32, 97, 32, 99, 111,
       109, 109, 101, 110, 116, 34, 44, 34, 121, 34, 58, 34, 47, 42, 32, 97, 108,
       115, 111, 32, 110, 111, 116, 32, 42, 47, 34, 125] =
      [123, 34, 120, 34, 58, 34, 110, 111, 116, 32, 47, 47, 32, 97, 32, 99, 111,
       109, 109, 101, 110, 116, 34, 44, 34, 121, 34, 58, 34, 47, 42, 32, 97, 108,
       115, 111, 32, 110, 111, 116, 32, 42, 47, 34, 125] := by
  refine ⟨?_, ?_, by decide⟩
  · intro c
    by_cases h1 : c = 92 <;> by_cases h2 : c = 34 <;> simp [scStep, h1, h2]
  · intro c
    rfl

/-- C9: after the AAD parses as a header, a mismatch between the header's
kid and the wire kid field, or between the header's alg and the wire alg
field, fails with `headerMismatch` — for every keyring and every AEAD-open
function, i.e. before any key lookup or AEAD open is consulted. -/
theorem C9_header_mismatch (ph : List Byte → Option SecHeader)
    (kr : List Byte → Option (List Byte))
    (aopen : List Byte → List Byte → List Byte → List Byte → Option (List Byte))
    (alg kid nonce aad ct r : List Byte) (hdr : SecHeader)
    (ha : alg.length < 2 ^ 64) (hk : kid.length < 2 ^ 64)
    (hn : nonce.length < 2 ^ 64) (hd : aad.length < 2 ^ 64)
    (hc : ct.length < 2 ^ 64)
    (hph : ph aad = some hdr)
    (hmm : ¬ hdr.kid = kid ∨ ¬ alg = hdr.alg) :
    DecryptJOLT ph kr aopen
      (magicJSEC ++ (0x01 :: (lenBytes alg ++ (lenBytes kid ++ (lenBytes nonce ++
        (lenBytes aad ++ (lenBytes ct ++ r))))))) = .error .headerMismatch := by
  simp only [DecryptJOLT]
  rw [show (4 : ℕ) = magicJSEC.length from rfl, readN_append]
  dsimp only
  rw [if_neg (show ¬ ¬ magicJSEC = magicJSEC from fun h => h rfl)]
  rw [readByte_cons]
  dsimp only
  rw [if_neg (show ¬ ¬ (0x01 : Byte) = 0x01 from fun h => h rfl)]
  rw [readVarBytesJS_lenBytes alg _ ha]
  dsimp only
  rw [readVarBytesJS_lenBytes kid _ hk]
  dsimp only
  rw [readVarBytesJS_lenBytes nonce _ hn]
  dsimp only
  rw [readVarBytesJS_lenBytes aad _ hd]
  dsimp only
  rw [readVarBytesJS_lenBytes ct _ hc]
  dsimp only
  rw [hph]
  dsimp only
  rw [if_pos hmm]

theorem C9_header_mismatch_witness :
    (fun (_ : List Byte) => some (SecHeader.mk algAESGCM [107, 49])) [2] =
      some (SecHeader.mk algAESGCM [107, 49]) ∧
    (¬ ([107, 49] : List Byte) = [107, 50] ∨ ¬ algAESGCM = algAESGCM) ∧
    DecryptJOLT (fun _ => some (SecHeader.mk algAESGCM [107, 49]))
      (fun _ => some (List.replicate 32 0)) (fun _ _ _ _ => some [0])
      (magicJSEC ++ (0x01 :: (lenBytes algAESGCM ++ (lenBytes [107, 50] ++
        (lenBytes [1] ++ (lenBytes [2] ++ (lenBytes [3] ++ []))))))) =
      .error .headerMismatch :=
  ⟨rfl, by decide,
    C9_header_mismatch (fun _ => some (SecHeader.mk algAESGCM [107, 49]))
      (fun _ => some (List.replicate 32 0)) (fun _ _ _ _ => some [0])
      algAESGCM [107, 50] [1] [2] [3] [] (SecHeader.mk algAESGCM [107, 49])
      (by decide) (by decide) (by decide) (by decide) (by decide) rfl
      (Or.inl (by decide))⟩

/-- C10: the Dec decoder truncates the zigzag-decoded 64-bit exponent to
its low 32 bits (`int32(exp)`): two Dec wires identical except for
exponents congruent modulo `2^32` decode to the same value. -/
theorem C10_dec_exponent_mod32 (pc : Bool) (lim : Limits) (depth : ℕ) (sb : Byte)
    (u₁ u₂ : ℕ) (mag r : List Byte) (f : ℕ)
    (hu₁ : u₁ < 2 ^ 64) (hu₂ : u₂ < 2 ^ 64) (hmag : mag.length < 2 ^ 64)
    (hdep : ¬ depth > lim.MaxDepth)
    (hcong : (2 ^ 32 : ℤ) ∣ (zigzagDec u₁ - zigzagDec u₂)) :
    decodeAny pc lim (f + 1) depth ((tagDec :: sb :: uvarintEnc u₁ ++ lenBytes mag) ++ r) =
      decodeAny pc lim (f + 1) depth ((tagDec :: sb :: uvarintEnc u₂ ++ lenBytes mag) ++ r) := by
  rw [decode_dec_wire pc lim depth sb u₁ mag r hu₁ hmag hdep f,
    decode_dec_wire pc lim depth sb u₂ mag r hu₂ hmag hdep f,
    toInt32_congr hcong]

theorem C10_dec_exponent_mod32_witness :
    ((2 ^ 32 : ℤ) ∣ (zigzagDec 0 - zigzagDec (2 ^ 33))) ∧
    decodeAny true DefaultLimits 21 0
        ((tagDec :: (0 : Byte) :: uvarintEnc 0 ++ lenBytes [7]) ++ []) =
      decodeAny true DefaultLimits 21 0
        ((tagDec :: (0 : Byte) :: uvarintEnc (2 ^ 33) ++ lenBytes [7]) ++ []) :=
  ⟨by decide,
    C10_dec_exponent_mod32 true DefaultLimits 0 0 0 (2 ^ 33) [7] [] 20
      (by decide) (by decide) (by decide) (by decide) (by decide)⟩
